import Mathlib

/-!
Verification of the RAMCloud in-memory hashtable (src/src/Hashtable.h) and the
stub RPC server (src/src/server/server.cc).

The repository ships only the hashtable's header; the implementation of the
member functions is not under src/.  Definitions for the hashtable are
therefore modelled from the spec (each doc comment says so), faithful to the
spec's operational description, while constants and the data layout follow the
declarations in Hashtable.h.  The server's handleRPC is translated directly
from server.cc.
-/

namespace RAMCloud

/-- Error kinds raised by the hashtable (spec section 7). -/
inductive RcErr
  | PointerOutOfRange
  | NullPointer
deriving DecidableEq, Repr

/-- Result of Entry::unpack, mirroring struct UnpackedEntry in Hashtable.h:
a 16-bit secondary hash, the chain bit, and the 47-bit pointer. -/
structure UnpackedEntry where
  hash : Nat
  chain : Bool
  ptr : Nat
deriving DecidableEq, Repr

/-- Modelled from the spec: the body of Entry::pack is not under src/.
Spec section 4.1: the packed 64-bit word is
word = (hash16 << 48) | (chain << 47) | (ptr & ((1 << 47) - 1)),
and pack fails with PointerOutOfRange if the pointer has non-zero bits
outside the low 47 (the implementation MUST assert this at pack time).
The word is a C uint64_t, hence the reduction modulo 2^64. -/
def pack (hash : Nat) (chain : Bool) (ptr : Nat) : Except RcErr Nat :=
  if 2 ^ 47 ≤ ptr then .error .PointerOutOfRange
  else .ok (((hash <<< 48) ||| ((if chain then 1 else 0) <<< 47) |||
             (ptr &&& (2 ^ 47 - 1))) % 2 ^ 64)

/-- Modelled from the spec: the body of Entry::unpack is not under src/.
Spec section 4.1: unpacking is the inverse of packing; the secondary hash
occupies bits 48..63, the chain bit is bit 47, the pointer the low 47 bits. -/
def unpack (w : Nat) : UnpackedEntry :=
  { hash := w >>> 48
    chain := (w >>> 47) &&& 1 == 1
    ptr := w &&& (2 ^ 47 - 1) }

theorem pack_word_eq_add (h p : Nat) (c : Bool) (hp : p < 2 ^ 47) :
    (h <<< 48) ||| ((if c then 1 else 0) <<< 47) ||| (p &&& (2 ^ 47 - 1)) =
      2 ^ 48 * h + 2 ^ 47 * (if c then 1 else 0) + p := by
  have hmask : p &&& (2 ^ 47 - 1) = p := Nat.and_pow_two_sub_one_of_lt_two_pow hp
  have hcb : (if c then 1 else 0) ≤ 1 := by cases c <;> simp
  rw [hmask, Nat.or_assoc, Nat.shiftLeft_eq, Nat.shiftLeft_eq,
    Nat.mul_comm h (2 ^ 48), Nat.mul_comm (if c then 1 else 0) (2 ^ 47)]
  rw [← Nat.mul_add_lt_is_or (i := 47) hp (if c then 1 else 0)]
  rw [← Nat.mul_add_lt_is_or (i := 48) (b := 2 ^ 47 * (if c then 1 else 0) + p) (by omega) h]
  omega

/-- C2: for every 16-bit hash h, chain flag c and pointer p with all bits above
bit 46 zero, pack (h, c, p) succeeds with exactly the word
(h << 48) | (c << 47) | (p & ((1 << 47) - 1)), and unpacking that word yields
(h, c, p) back. -/
theorem pack_unpack_roundtrip (h p : Nat) (c : Bool)
    (hh : h < 2 ^ 16) (hp : p < 2 ^ 47) :
    pack h c p =
      .ok ((h <<< 48) ||| ((if c then 1 else 0) <<< 47) ||| (p &&& (2 ^ 47 - 1)))
    ∧ ∀ w, pack h c p = .ok w → unpack w = ⟨h, c, p⟩ := by
  have hcb : (if c then 1 else 0) ≤ 1 := by cases c <;> simp
  have hadd := pack_word_eq_add h p c hp
  have hlt : 2 ^ 48 * h + 2 ^ 47 * (if c then 1 else 0) + p < 2 ^ 64 := by omega
  have hok : pack h c p =
      .ok ((h <<< 48) ||| ((if c then 1 else 0) <<< 47) ||| (p &&& (2 ^ 47 - 1))) := by
    unfold pack
    rw [if_neg (by omega)]
    rw [hadd, Nat.mod_eq_of_lt hlt]
  refine ⟨hok, ?_⟩
  intro w hw
  rw [hok] at hw
  have hweq : w = 2 ^ 48 * h + 2 ^ 47 * (if c then 1 else 0) + p := by
    have := Except.ok.inj hw
    omega
  subst hweq
  unfold unpack
  have h48 : (2 ^ 48 * h + 2 ^ 47 * (if c then 1 else 0) + p) >>> 48 = h := by
    rw [Nat.shiftRight_eq_div_pow]
    have hr : 2 ^ 47 * (if c then 1 else 0) + p < 2 ^ 48 := by omega
    rw [Nat.add_assoc, Nat.mul_add_div (by positivity), Nat.div_eq_of_lt hr, Nat.add_zero]
  have h47 : (2 ^ 48 * h + 2 ^ 47 * (if c then 1 else 0) + p) >>> 47 =
      2 * h + (if c then 1 else 0) := by
    rw [Nat.shiftRight_eq_div_pow]
    have : 2 ^ 48 * h + 2 ^ 47 * (if c then 1 else 0) + p =
        2 ^ 47 * (2 * h + (if c then 1 else 0)) + p := by ring_nf
    rw [this, Nat.mul_add_div (by positivity), Nat.div_eq_of_lt hp, Nat.add_zero]
  have hmod : (2 ^ 48 * h + 2 ^ 47 * (if c then 1 else 0) + p) &&& (2 ^ 47 - 1) = p := by
    rw [Nat.and_pow_two_sub_one_eq_mod]
    have : 2 ^ 48 * h + 2 ^ 47 * (if c then 1 else 0) + p =
        2 ^ 47 * (2 * h + (if c then 1 else 0)) + p := by ring_nf
    rw [this, Nat.mul_add_mod, Nat.mod_eq_of_lt hp]
  refine UnpackedEntry.mk.injEq .. ▸ ⟨h48, ?_, hmod⟩
  rw [h47, Nat.and_one_is_mod]
  cases c with
  | false => simp [Nat.mul_add_mod]
  | true => simp [Nat.mul_add_mod]

/-- Logical state of a hash table entry (spec section 3): a slot is Unused,
holds an object pointer tagged with a 16-bit secondary hash (Occupied), or is
a chain link to the next cache line of the bucket.  In the list model below a
chain link refers to the next element of the bucket's line list. -/
inductive Entry
  | Unused
  | Occupied (hash ptr : Nat)
  | Chain
deriving DecidableEq, Repr

/-- Whether the entry is a chain link (Entry::isChainLink). -/
def Entry.isChain : Entry → Bool
  | .Chain => true
  | _ => false

/-- Whether the entry is Occupied with the given secondary hash
(Entry::hashMatches on a non-chain, non-available entry). -/
def entryMatches (sh : Nat) : Entry → Bool
  | .Occupied h _ => h == sh
  | _ => false

/-- A cache line: an array of ENTRIES_PER_CACHE_LINE = 8 entries
(struct cacheline in Hashtable.h). -/
abbrev Line := List Entry

/-- A freshly zeroed cache line: every entry starts Unused (spec section 4.2). -/
def emptyLine : Line := List.replicate 8 .Unused

/-- Last entry of a cache line (the slot that may hold the chain link). -/
def lastEntry : Line → Entry
  | [] => .Unused
  | [e] => e
  | _ :: e :: rest => lastEntry (e :: rest)

/-- Modelled from the spec: chain growth converts the LAST slot of the
terminal cache line into a chain link (spec section 4.3, Insert). -/
def setLastToChain (l : Line) : Line := l.dropLast ++ [.Chain]

/-- Modelled from the spec: the new overflow line built during chain growth;
slot 0 receives the displaced Occupied entry if the converted last slot was
Occupied, and the new entry goes in the next available slot (section 4.3). -/
def newOverflowLine (displaced e : Entry) : Line :=
  match displaced with
  | .Occupied h p => .Occupied h p :: e :: List.replicate 6 .Unused
  | _ => e :: List.replicate 7 .Unused

/-- Outcome of scanning one cache line during a lookup-style walk. -/
inductive ScanOut
  | found (p : Nat)
  | toChain
  | stop
deriving DecidableEq, Repr

/-- Modelled from the spec: within each cache line Lookup inspects entries in
index order 0..7; an Occupied entry with matching secondary hash returns its
pointer, a chain link redirects the walk, Unused entries are skipped
(spec section 4.3, Lookup). -/
def scanLine (sh : Nat) : Line → ScanOut
  | [] => .stop
  | .Occupied h p :: rest => if h = sh then .found p else scanLine sh rest
  | .Chain :: _ => .toChain
  | .Unused :: rest => scanLine sh rest

/-- Modelled from the spec: the chain walk of Hashtable::LookupKeyPtr, whose
body is not under src/.  Walk the lines of the bucket in chain order; return
the first hash-matching Occupied pointer, follow chain links, and report
not-found when the terminal line ends (spec section 4.3, Lookup). -/
def lookupChain (sh : Nat) : List Line → Option Nat
  | [] => none
  | l :: rest =>
    match scanLine sh l with
    | .found p => some p
    | .toChain => lookupChain sh rest
    | .stop => none

/-- Modelled from the spec: the in-line part of Insert's search for the first
Unused slot; the scan visits slots in order and stops at a chain link
(spec section 4.3, Insert). -/
def firstUnusedLine (e : Entry) : Line → Option Line
  | [] => none
  | .Unused :: rest => some (e :: rest)
  | .Chain :: _ => none
  | x :: rest => (firstUnusedLine e rest).map (x :: ·)

/-- Modelled from the spec: Insert's walk that writes the new entry into the
FIRST Unused slot encountered along the bucket's chain, or reports none when
the walk reaches the end of the chain without finding one (section 4.3). -/
def fillFirstUnused (e : Entry) : List Line → Option (List Line)
  | [] => none
  | l :: rest =>
    match firstUnusedLine e l with
    | some l2 => some (l2 :: rest)
    | none =>
      if l.any Entry.isChain then (fillFirstUnused e rest).map (l :: ·) else none

/-- Modelled from the spec: chain growth. A single new overflow cache line is
allocated, the last slot of the terminal line becomes a chain link to it, and
the displaced entry (if Occupied) moves to slot 0 of the new line
(spec section 4.3, Insert and chain growth policy). -/
def growChain (e : Entry) : List Line → List Line
  | [] => [e :: List.replicate 7 .Unused]
  | [l] => [setLastToChain l, newOverflowLine (lastEntry l) e]
  | l :: rest => l :: growChain e rest

/-- Modelled from the spec: the state change of Hashtable::Insert on the
bucket's chain, whose body is not under src/ (spec section 4.3, Insert). -/
def insertChain (sh p : Nat) (c : List Line) : List Line :=
  match fillFirstUnused (.Occupied sh p) c with
  | some c2 => c2
  | none => growChain (.Occupied sh p) c

/-- Modelled from the spec: the shared walk of Delete and Replace.  Walk as in
Lookup and rewrite the FIRST hash-matching Occupied entry using f (applied to
the stored hash and pointer); none when no match is found before the terminal
line ends (spec section 4.3, Delete and Replace). -/
def updateMatchLine (f : Nat → Nat → Entry) (sh : Nat) : Line → Option Line
  | [] => none
  | .Occupied h p :: rest =>
    if h = sh then some (f h p :: rest)
    else (updateMatchLine f sh rest).map (.Occupied h p :: ·)
  | .Chain :: _ => none
  | .Unused :: rest => (updateMatchLine f sh rest).map (.Unused :: ·)

/-- Modelled from the spec: chain-level walk of Delete and Replace
(spec section 4.3). -/
def updateMatchChain (f : Nat → Nat → Entry) (sh : Nat) : List Line → Option (List Line)
  | [] => none
  | l :: rest =>
    match updateMatchLine f sh l with
    | some l2 => some (l2 :: rest)
    | none =>
      if l.any Entry.isChain then (updateMatchChain f sh rest).map (l :: ·) else none

/-- Modelled from the spec: Hashtable::Delete's effect on the bucket chain;
the first hash-matching Occupied entry is replaced with Unused
(spec section 4.3, Delete). -/
def deleteChain (sh : Nat) : List Line → Option (List Line) :=
  updateMatchChain (fun _ _ => .Unused) sh

/-- Modelled from the spec: Hashtable::Replace's overwrite walk; the first
hash-matching Occupied entry keeps its stored hash bits and receives the new
pointer (spec section 4.3, Replace). -/
def replaceChain (sh p2 : Nat) : List Line → Option (List Line) :=
  updateMatchChain (fun h _ => .Occupied h p2) sh

/-- The hashtable state: the number of buckets (table_lines in Hashtable.h)
and, for each bucket index, its chain of cache lines (the head line lives in
the bucket array, overflow lines are linked behind it). -/
structure HT where
  nlines : Nat
  table : Nat → List Line

/-- A freshly constructed table: every bucket is one zeroed cache line
(spec section 4.2). -/
def HT.empty (n : Nat) : HT := { nlines := n, table := fun _ => [emptyLine] }

/-- Modelled from the spec: hash derivation (spec section 4.4):
bucket_index = key mod N. -/
def HT.bucketOf (ht : HT) (key : Nat) : Nat := key % ht.nlines

/-- Modelled from the spec: hash derivation (spec section 4.4):
secondary_hash = high 16 bits of the 64-bit key. -/
def secondaryHash (key : Nat) : Nat := key >>> 48

/-- Modelled from the spec: Hashtable::Lookup, whose body is not under src/
(spec section 4.3, Lookup). -/
def HT.lookup (ht : HT) (key : Nat) : Option Nat :=
  lookupChain (secondaryHash key) (ht.table (ht.bucketOf key))

/-- The table update performed by a successful Insert: only the bucket of the
key changes, via insertChain. -/
def HT.insertRaw (ht : HT) (key ptr : Nat) : HT :=
  { ht with table := fun i =>
      if i = ht.bucketOf key then insertChain (secondaryHash key) ptr (ht.table i)
      else ht.table i }

/-- Modelled from the spec: Hashtable::Insert, whose body is not under src/.
Preconditions pointer non-null and 47-bit are checked first (NullPointer,
and PointerOutOfRange at pack time); on success the bucket chain is updated
(spec sections 4.3, 6 and 7). -/
def HT.insert (ht : HT) (key ptr : Nat) : Except RcErr HT :=
  if ptr = 0 then .error .NullPointer
  else
    match pack (secondaryHash key) false ptr with
    | .error e => .error e
    | .ok _ => .ok (ht.insertRaw key ptr)

/-- Modelled from the spec: Hashtable::Delete, whose body is not under src/.
Returns whether an entry was removed; the table is unchanged on a miss
(spec section 4.3, Delete). -/
def HT.delete (ht : HT) (key : Nat) : Bool × HT :=
  match deleteChain (secondaryHash key) (ht.table (ht.bucketOf key)) with
  | some c2 =>
    (true, { ht with table := fun i => if i = ht.bucketOf key then c2 else ht.table i })
  | none => (false, ht)

/-- Modelled from the spec: Hashtable::Replace, whose body is not under src/.
On the first hash-matching Occupied entry the pointer is overwritten and true
is returned; otherwise the entry is inserted as in Insert and false is
returned (spec section 4.3, Replace). -/
def HT.replace (ht : HT) (key ptr : Nat) : Except RcErr (Bool × HT) :=
  if ptr = 0 then .error .NullPointer
  else
    match pack (secondaryHash key) false ptr with
    | .error e => .error e
    | .ok _ =>
      match replaceChain (secondaryHash key) ptr (ht.table (ht.bucketOf key)) with
      | some c2 =>
        .ok (true, { ht with table := fun i => if i = ht.bucketOf key then c2 else ht.table i })
      | none => .ok (false, ht.insertRaw key ptr)

/-- One hashtable operation, for reasoning about operation sequences. -/
inductive Op
  | ins (key ptr : Nat)
  | del (key : Nat)
  | rep (key ptr : Nat)
deriving DecidableEq, Repr

/-- Apply one operation to the table; an operation that fails (null or
out-of-range pointer) leaves the table unchanged. -/
def applyOp (ht : HT) : Op → HT
  | .ins k p => match ht.insert k p with | .ok ht2 => ht2 | .error _ => ht
  | .del k => (ht.delete k).snd
  | .rep k p => match ht.replace k p with | .ok r => r.snd | .error _ => ht

/-- Apply a sequence of operations in order. -/
def applyOps (ht : HT) (ops : List Op) : HT := ops.foldl applyOp ht

/-- Wellformed cache line: exactly 8 entries, and a chain link can only sit in
the last slot (spec section 3, cache line). -/
def wfLine (l : Line) : Bool :=
  (l.length == 8) && l.dropLast.all fun e => !e.isChain

/-- Wellformed bucket chain: nonempty, all lines wellformed, every
non-terminal line ends with a chain link, and the terminal line does not
(spec section 3 and invariant G3). -/
def wfChain : List Line → Bool
  | [] => false
  | [l] => wfLine l && !(lastEntry l).isChain
  | l :: rest => wfLine l && (lastEntry l == .Chain) && wfChain rest

/-- Invariant G3 alone: within a bucket chain every cache line except
possibly the last has a chain link as its last entry. -/
def chainLinked : List Line → Bool
  | [] => true
  | [_] => true
  | l :: rest => (lastEntry l == .Chain) && chainLinked rest

/-- Wellformed table: every bucket chain is wellformed. -/
def HT.wf (ht : HT) : Prop := ∀ i, wfChain (ht.table i) = true

/-- The hash-matching Occupied pointers of one cache line in slot order,
stopping at the chain link: the candidates the lookup walk can see in this
line (spec section 4.3, Lookup). -/
def lineCands (sh : Nat) : Line → List Nat
  | [] => []
  | .Occupied h p :: rest =>
    if h = sh then p :: lineCands sh rest else lineCands sh rest
  | .Chain :: _ => []
  | .Unused :: rest => lineCands sh rest

/-- All lookup candidates of a bucket chain in chain-then-slot order; the walk
continues past a line only when that line carries a chain link
(spec section 4.3, Lookup). -/
def chainCands (sh : Nat) : List Line → List Nat
  | [] => []
  | l :: rest =>
    if l.any Entry.isChain then lineCands sh l ++ chainCands sh rest
    else lineCands sh l

/-- An operation avoids key k when it is not a Delete or Replace of a key
with both the same bucket index and the same secondary hash as k. -/
def opAvoids (k n : Nat) : Op → Prop
  | .ins _ _ => True
  | .del k2 => ¬(k2 % n = k % n ∧ secondaryHash k2 = secondaryHash k)
  | .rep k2 _ => ¬(k2 % n = k % n ∧ secondaryHash k2 = secondaryHash k)

theorem scanLine_found_head (sh : Nat) (l : Line) (p : Nat)
    (h : scanLine sh l = .found p) : (lineCands sh l).head? = some p := by
  induction l with
  | nil => simp [scanLine] at h
  | cons e rest ih =>
    cases e with
    | Unused => simp only [scanLine] at h; simpa [lineCands] using ih h
    | Chain => simp [scanLine] at h
    | Occupied hh pp =>
      by_cases hsh : hh = sh
      · simp only [scanLine, if_pos hsh] at h
        cases h
        simp [lineCands, if_pos hsh]
      · simp only [scanLine, if_neg hsh] at h
        simpa [lineCands, if_neg hsh] using ih h

theorem scanLine_toChain (sh : Nat) (l : Line)
    (h : scanLine sh l = .toChain) :
    lineCands sh l = [] ∧ l.any Entry.isChain = true := by
  induction l with
  | nil => simp [scanLine] at h
  | cons e rest ih =>
    cases e with
    | Unused =>
      simp only [scanLine] at h
      simpa [lineCands, Entry.isChain] using ih h
    | Chain => simp [lineCands, Entry.isChain]
    | Occupied hh pp =>
      by_cases hsh : hh = sh
      · simp [scanLine, if_pos hsh] at h
      · simp only [scanLine, if_neg hsh] at h
        simpa [lineCands, if_neg hsh, Entry.isChain] using ih h

theorem scanLine_stop (sh : Nat) (l : Line)
    (h : scanLine sh l = .stop) :
    lineCands sh l = [] ∧ l.any Entry.isChain = false := by
  induction l with
  | nil => simp [lineCands]
  | cons e rest ih =>
    cases e with
    | Unused =>
      simp only [scanLine] at h
      simpa [lineCands, Entry.isChain] using ih h
    | Chain => simp [scanLine] at h
    | Occupied hh pp =>
      by_cases hsh : hh = sh
      · simp [scanLine, if_pos hsh] at h
      · simp only [scanLine, if_neg hsh] at h
        simpa [lineCands, if_neg hsh, Entry.isChain] using ih h

theorem lookupChain_eq_head (sh : Nat) (c : List Line) :
    lookupChain sh c = (chainCands sh c).head? := by
  induction c with
  | nil => rfl
  | cons l rest ih =>
    simp only [lookupChain, chainCands]
    cases hs : scanLine sh l with
    | found p =>
      have hhead := scanLine_found_head sh l p hs
      cases hcl : lineCands sh l with
      | nil => rw [hcl] at hhead; simp at hhead
      | cons q t =>
        rw [hcl] at hhead
        simp only [List.head?] at hhead
        cases hany : l.any Entry.isChain <;> simp [hcl, hhead]
    | toChain =>
      obtain ⟨h1, h2⟩ := scanLine_toChain sh l hs
      simp [h1, h2, ih]
    | stop =>
      obtain ⟨h1, h2⟩ := scanLine_stop sh l hs
      simp [h1, h2]

/-- C1: for every key k in a table with N buckets, Lookup inspects only the
chain of bucket (k mod N); it returns the pointer of the FIRST Occupied entry,
in chain-then-slot order, whose stored secondary hash equals the high 16 bits
of k, and not-found (none) when no such entry exists before the terminal line
ends.  chainCands lists exactly those matching pointers, visiting cache lines
in chain order and slots in order 0..7. -/
theorem lookup_first_candidate (ht : HT) (k : Nat) :
    ht.lookup k = (chainCands (secondaryHash k) (ht.table (k % ht.nlines))).head? :=
  lookupChain_eq_head (secondaryHash k) (ht.table (k % ht.nlines))

/-- The candidate contribution of a single entry: its pointer when it is
Occupied with matching hash, nothing otherwise. -/
def entryCand (sh : Nat) : Entry → List Nat
  | .Occupied h p => if h = sh then [p] else []
  | _ => []

/-- Concatenated candidates of a list of lines, all assumed chained through. -/
def candsOfPrefix (sh : Nat) (c : List Line) : List Nat :=
  c.foldr (fun l a => lineCands sh l ++ a) []

theorem lineCands_eq_nil_of_no_match (sh : Nat) (l : Line)
    (h : ∀ y ∈ l, entryMatches sh y = false) : lineCands sh l = [] := by
  induction l with
  | nil => rfl
  | cons e rest ih =>
    cases e with
    | Unused => exact ih fun y hy => h y (List.mem_cons_of_mem _ hy)
    | Chain => rfl
    | Occupied hh pp =>
      have hm := h _ (List.mem_cons_self _ _)
      simp only [entryMatches, beq_eq_false_iff_ne, ne_eq] at hm
      simp only [lineCands, if_neg hm]
      exact ih fun y hy => h y (List.mem_cons_of_mem _ hy)

theorem lineCands_decomp (sh : Nat) (e₁ : Line) (x : Entry) (e₂ : Line)
    (he₁ : ∀ y ∈ e₁, y.isChain = false) (hx : x.isChain = false) :
    lineCands sh (e₁ ++ x :: e₂) = lineCands sh e₁ ++ entryCand sh x ++ lineCands sh e₂ := by
  induction e₁ with
  | nil =>
    cases x with
    | Unused => simp [lineCands, entryCand]
    | Chain => simp [Entry.isChain] at hx
    | Occupied hh pp =>
      by_cases hsh : hh = sh <;> simp [lineCands, entryCand, hsh]
  | cons e rest ih =>
    have hrest := fun y hy => he₁ y (List.mem_cons_of_mem _ hy)
    cases e with
    | Unused => simpa [lineCands] using ih hrest
    | Chain => simpa [Entry.isChain] using he₁ _ (List.mem_cons_self _ _)
    | Occupied hh pp =>
      by_cases hsh : hh = sh <;> simp [lineCands, hsh, ih hrest]

theorem lineAny_decomp (e₁ : Line) (x : Entry) (e₂ : Line)
    (he₁ : ∀ y ∈ e₁, y.isChain = false) (hx : x.isChain = false) :
    (e₁ ++ x :: e₂).any Entry.isChain = e₂.any Entry.isChain := by
  have h1 : e₁.any Entry.isChain = false := List.any_eq_false.mpr (by simpa using he₁)
  simp [List.any_append, h1, hx]

theorem chainCands_decomp (sh : Nat) (c₁ : List Line) (e₁ : Line) (x : Entry)
    (e₂ : Line) (cr : List Line)
    (hc₁ : ∀ l ∈ c₁, l.any Entry.isChain = true)
    (he₁ : ∀ y ∈ e₁, y.isChain = false) (hx : x.isChain = false) :
    chainCands sh (c₁ ++ (e₁ ++ x :: e₂) :: cr) =
      candsOfPrefix sh c₁ ++ (lineCands sh e₁ ++ entryCand sh x ++
        (lineCands sh e₂ ++ if e₂.any Entry.isChain then chainCands sh cr else [])) := by
  induction c₁ with
  | nil =>
    simp only [List.nil_append, chainCands, candsOfPrefix, List.foldr_nil]
    rw [lineAny_decomp e₁ x e₂ he₁ hx, lineCands_decomp sh e₁ x e₂ he₁ hx]
    cases hany : e₂.any Entry.isChain <;> simp [List.append_assoc]
  | cons l c₁ ih =>
    have hl := hc₁ l (List.mem_cons_self _ _)
    have hrest := fun l' hl' => hc₁ l' (List.mem_cons_of_mem _ hl')
    simp only [List.cons_append, chainCands, hl, if_pos]
    simp [candsOfPrefix, ih hrest, List.append_assoc]

theorem updateMatchLine_none_iff (f : Nat → Nat → Entry) (sh : Nat) (l : Line) :
    updateMatchLine f sh l = none ↔ lineCands sh l = [] := by
  induction l with
  | nil => simp [updateMatchLine, lineCands]
  | cons e rest ih =>
    cases e with
    | Unused =>
      simp only [updateMatchLine, lineCands]
      cases h : updateMatchLine f sh rest <;> simp [h] at ih ⊢ <;> simpa using ih
    | Chain => simp [updateMatchLine, lineCands]
    | Occupied hh pp =>
      by_cases hsh : hh = sh
      · simp [updateMatchLine, lineCands, hsh]
      · simp only [updateMatchLine, lineCands, if_neg hsh]
        cases h : updateMatchLine f sh rest <;> simp [h] at ih ⊢ <;> simpa using ih

theorem updateMatchLine_some (f : Nat → Nat → Entry) (sh : Nat) (l l2 : Line)
    (h : updateMatchLine f sh l = some l2) :
    ∃ e₁ p e₂, l = e₁ ++ .Occupied sh p :: e₂ ∧ l2 = e₁ ++ f sh p :: e₂ ∧
      ∀ x ∈ e₁, x.isChain = false ∧ entryMatches sh x = false := by
  induction l generalizing l2 with
  | nil => simp [updateMatchLine] at h
  | cons e rest ih =>
    cases e with
    | Unused =>
      simp only [updateMatchLine, Option.map_eq_some'] at h
      obtain ⟨l2', hl2', rfl⟩ := h
      obtain ⟨e₁, p, e₂, h1, h2, h3⟩ := ih l2' hl2'
      refine ⟨.Unused :: e₁, p, e₂, by simp [h1], by simp [h2], ?_⟩
      intro x hx
      rcases List.mem_cons.mp hx with rfl | hx2
      · exact ⟨rfl, rfl⟩
      · exact h3 x hx2
    | Chain => simp [updateMatchLine] at h
    | Occupied hh pp =>
      simp only [updateMatchLine] at h
      split at h
      next hsh =>
        subst hsh
        obtain rfl : f hh pp :: rest = l2 := by simpa using h
        exact ⟨[], pp, rest, rfl, rfl, by simp⟩
      next hsh =>
        simp only [Option.map_eq_some'] at h
        obtain ⟨l2', hl2', rfl⟩ := h
        obtain ⟨e₁, p, e₂, h1, h2, h3⟩ := ih l2' hl2'
        refine ⟨.Occupied hh pp :: e₁, p, e₂, by simp [h1], by simp [h2], ?_⟩
        intro x hx
        rcases List.mem_cons.mp hx with rfl | hx2
        · exact ⟨rfl, by simp [entryMatches, hsh]⟩
        · exact h3 x hx2

theorem updateMatchChain_none_iff (f : Nat → Nat → Entry) (sh : Nat) (c : List Line) :
    updateMatchChain f sh c = none ↔ chainCands sh c = [] := by
  induction c with
  | nil => simp [updateMatchChain, chainCands]
  | cons l rest ih =>
    simp only [updateMatchChain, chainCands]
    cases hu : updateMatchLine f sh l with
    | some l2 =>
      have hl : lineCands sh l ≠ [] := fun hc =>
        by rw [(updateMatchLine_none_iff f sh l).mpr hc] at hu; exact Option.noConfusion hu
      cases hany : l.any Entry.isChain <;> simp [hl]
    | none =>
      have hl : lineCands sh l = [] := (updateMatchLine_none_iff f sh l).mp hu
      cases hany : l.any Entry.isChain with
      | false => simp [hl]
      | true =>
        simp only [hl, List.nil_append, if_pos]
        cases hr : updateMatchChain f sh rest <;> simp [hr] at ih ⊢ <;> simpa using ih

theorem updateMatchChain_some (f : Nat → Nat → Entry) (sh : Nat) (c c2 : List Line)
    (h : updateMatchChain f sh c = some c2) :
    ∃ c₁ e₁ p e₂ cr,
      c = c₁ ++ (e₁ ++ .Occupied sh p :: e₂) :: cr ∧
      c2 = c₁ ++ (e₁ ++ f sh p :: e₂) :: cr ∧
      (∀ l ∈ c₁, lineCands sh l = [] ∧ l.any Entry.isChain = true) ∧
      ∀ x ∈ e₁, x.isChain = false ∧ entryMatches sh x = false := by
  induction c generalizing c2 with
  | nil => simp [updateMatchChain] at h
  | cons l rest ih =>
    simp only [updateMatchChain] at h
    cases hu : updateMatchLine f sh l with
    | some l2 =>
      rw [hu] at h
      obtain rfl : l2 :: rest = c2 := by simpa using h
      obtain ⟨e₁, p, e₂, h1, h2, h3⟩ := updateMatchLine_some f sh l l2 hu
      exact ⟨[], e₁, p, e₂, rest, by simp [h1], by simp [h2], by simp, h3⟩
    | none =>
      rw [hu] at h
      cases hany : l.any Entry.isChain with
      | false => simp [hany] at h
      | true =>
        simp only [hany, if_pos, Option.map_eq_some'] at h
        obtain ⟨cr2, hcr2, rfl⟩ := h
        obtain ⟨c₁, e₁, p, e₂, cr, h1, h2, h3, h4⟩ := ih cr2 hcr2
        refine ⟨l :: c₁, e₁, p, e₂, cr, by simp [h1], by simp [h2], ?_, h4⟩
        intro l' hl'
        rcases List.mem_cons.mp hl' with rfl | hl2
        · exact ⟨(updateMatchLine_none_iff f sh l').mp hu, hany⟩
        · exact h3 l' hl2

theorem candsOfPrefix_nil (sh : Nat) (c : List Line)
    (h : ∀ l ∈ c, lineCands sh l = []) : candsOfPrefix sh c = [] := by
  induction c with
  | nil => rfl
  | cons l rest ih =>
    simp only [candsOfPrefix, List.foldr_cons, h l (List.mem_cons_self _ _)]
    exact ih fun l' hl' => h l' (List.mem_cons_of_mem _ hl')

theorem update_master (f : Nat → Nat → Entry) (sh : Nat) (c c2 : List Line)
    (hf : ∀ h0 p0, (f h0 p0).isChain = false)
    (hf2 : ∀ h0 p0 sh2, sh2 ≠ h0 → entryCand sh2 (f h0 p0) = [])
    (h : updateMatchChain f sh c = some c2) :
    ∃ c₁ e₁ p e₂ cr,
      c = c₁ ++ (e₁ ++ .Occupied sh p :: e₂) :: cr ∧
      c2 = c₁ ++ (e₁ ++ f sh p :: e₂) :: cr ∧
      (∀ l ∈ c₁, lineCands sh l = [] ∧ l.any Entry.isChain = true) ∧
      (∀ x ∈ e₁, x.isChain = false ∧ entryMatches sh x = false) ∧
      chainCands sh c =
        p :: (lineCands sh e₂ ++ if e₂.any Entry.isChain then chainCands sh cr else []) ∧
      chainCands sh c2 =
        entryCand sh (f sh p) ++
          (lineCands sh e₂ ++ if e₂.any Entry.isChain then chainCands sh cr else []) ∧
      (∀ sh2, sh2 ≠ sh → chainCands sh2 c2 = chainCands sh2 c) ∧
      c2.length = c.length := by
  obtain ⟨c₁, e₁, p, e₂, cr, h1, h2, h3, h4⟩ := updateMatchChain_some f sh c c2 h
  have hc₁any : ∀ l ∈ c₁, l.any Entry.isChain = true := fun l hl => (h3 l hl).2
  have he₁chain : ∀ y ∈ e₁, y.isChain = false := fun y hy => (h4 y hy).1
  have hxold : (Entry.Occupied sh p).isChain = false := rfl
  have hxnew : (f sh p).isChain = false := hf sh p
  have hdold := chainCands_decomp sh c₁ e₁ (.Occupied sh p) e₂ cr hc₁any he₁chain hxold
  have hdnew := chainCands_decomp sh c₁ e₁ (f sh p) e₂ cr hc₁any he₁chain hxnew
  have hpre : candsOfPrefix sh c₁ = [] := candsOfPrefix_nil sh c₁ fun l hl => (h3 l hl).1
  have he₁nil : lineCands sh e₁ = [] :=
    lineCands_eq_nil_of_no_match sh e₁ fun y hy => (h4 y hy).2
  have hcold : chainCands sh c =
      p :: (lineCands sh e₂ ++ if e₂.any Entry.isChain then chainCands sh cr else []) := by
    rw [h1, hdold, hpre, he₁nil]
    simp [entryCand]
  have hcnew : chainCands sh c2 =
      entryCand sh (f sh p) ++
        (lineCands sh e₂ ++ if e₂.any Entry.isChain then chainCands sh cr else []) := by
    rw [h2, hdnew, hpre, he₁nil]
    simp
  refine ⟨c₁, e₁, p, e₂, cr, h1, h2, h3, h4, hcold, hcnew, ?_, by simp [h1, h2]⟩
  intro sh2 hsh2
  have hdold2 := chainCands_decomp sh2 c₁ e₁ (.Occupied sh p) e₂ cr hc₁any he₁chain hxold
  have hdnew2 := chainCands_decomp sh2 c₁ e₁ (f sh p) e₂ cr hc₁any he₁chain hxnew
  have hoc : entryCand sh2 (Entry.Occupied sh p) = [] := by
    simp only [entryCand]
    exact if_neg fun hc => hsh2 hc.symm
  rw [h1, h2, hdold2, hdnew2, hoc, hf2 sh p sh2 hsh2]

theorem deleteChain_none_iff (sh : Nat) (c : List Line) :
    deleteChain sh c = none ↔ chainCands sh c = [] :=
  updateMatchChain_none_iff _ sh c

theorem replaceChain_none_iff (sh p2 : Nat) (c : List Line) :
    replaceChain sh p2 c = none ↔ chainCands sh c = [] :=
  updateMatchChain_none_iff _ sh c

theorem delete_fst_iff (ht : HT) (k : Nat) :
    (ht.delete k).fst = true ↔
      chainCands (secondaryHash k) (ht.table (k % ht.nlines)) ≠ [] := by
  simp only [HT.delete, HT.bucketOf]
  cases hd : deleteChain (secondaryHash k) (ht.table (k % ht.nlines)) with
  | some c2 =>
    simp only [hd]
    have hne : chainCands (secondaryHash k) (ht.table (k % ht.nlines)) ≠ [] := by
      intro hc
      rw [(deleteChain_none_iff _ _).mpr hc] at hd
      exact Option.noConfusion hd
    simpa using hne
  | none =>
    simp only [hd]
    have hnil := (deleteChain_none_iff _ _).mp hd
    simpa using hnil

/-- C5 (amended): Delete(k) returns true exactly when a hash-matching Occupied
candidate exists in k's bucket; on a miss the table is unchanged; on a hit
exactly the FIRST matching entry (in chain-then-slot order) is set to Unused,
every other entry is unchanged, no cache line is freed, and other buckets are
untouched; when the removed entry was the only matching candidate, a second
Delete(k) with no reinsertion returns false. -/
theorem delete_spec (ht : HT) (k : Nat) :
    ((ht.delete k).fst = true ↔
       chainCands (secondaryHash k) (ht.table (k % ht.nlines)) ≠ []) ∧
    (chainCands (secondaryHash k) (ht.table (k % ht.nlines)) = [] →
       ht.delete k = (false, ht)) ∧
    (∀ q qs, chainCands (secondaryHash k) (ht.table (k % ht.nlines)) = q :: qs →
       (ht.delete k).fst = true ∧
       (∃ c₁ e₁ e₂ cr,
          ht.table (k % ht.nlines) =
            c₁ ++ (e₁ ++ .Occupied (secondaryHash k) q :: e₂) :: cr ∧
          (ht.delete k).snd.table (k % ht.nlines) =
            c₁ ++ (e₁ ++ .Unused :: e₂) :: cr ∧
          (∀ l ∈ c₁, lineCands (secondaryHash k) l = [] ∧ l.any Entry.isChain = true) ∧
          (∀ x ∈ e₁, x.isChain = false ∧ entryMatches (secondaryHash k) x = false)) ∧
       chainCands (secondaryHash k) ((ht.delete k).snd.table (k % ht.nlines)) = qs ∧
       (∀ sh2, sh2 ≠ secondaryHash k →
          chainCands sh2 ((ht.delete k).snd.table (k % ht.nlines)) =
            chainCands sh2 (ht.table (k % ht.nlines))) ∧
       ((ht.delete k).snd.table (k % ht.nlines)).length =
         (ht.table (k % ht.nlines)).length ∧
       (∀ i, i ≠ k % ht.nlines → (ht.delete k).snd.table i = ht.table i) ∧
       (ht.delete k).snd.nlines = ht.nlines) ∧
    (∀ q, chainCands (secondaryHash k) (ht.table (k % ht.nlines)) = [q] →
       ((ht.delete k).snd.delete k).fst = false) := by
  refine ⟨delete_fst_iff ht k, ?_, ?_, ?_⟩
  · intro hc
    simp only [HT.delete, HT.bucketOf, (deleteChain_none_iff _ _).mpr hc]
  · intro q qs hc
    obtain ⟨c2, hd⟩ : ∃ c2,
        deleteChain (secondaryHash k) (ht.table (k % ht.nlines)) = some c2 := by
      cases hd : deleteChain (secondaryHash k) (ht.table (k % ht.nlines)) with
      | some c2 => exact ⟨c2, rfl⟩
      | none =>
        rw [(deleteChain_none_iff _ _).mp hd] at hc
        exact absurd hc (by simp)
    obtain ⟨c₁, e₁, p, e₂, cr, h1, h2, h3, h4, hcold, hcnew, hother, hlen⟩ :=
      update_master (fun _ _ => .Unused) (secondaryHash k) _ c2
        (fun _ _ => rfl) (fun _ _ _ _ => rfl) hd
    rw [hc] at hcold
    obtain ⟨rfl, htail⟩ : q = p ∧ qs = (lineCands (secondaryHash k) e₂ ++
        if e₂.any Entry.isChain then chainCands (secondaryHash k) cr else []) := by
      have := List.cons.injEq .. ▸ hcold
      exact ⟨this.1, this.2⟩
    have hdel : ht.delete k =
        (true, { ht with table := fun i =>
          if i = k % ht.nlines then c2 else ht.table i }) := by
      simp only [HT.delete, HT.bucketOf, hd]
    refine ⟨by rw [hdel], ⟨c₁, e₁, e₂, cr, h1, ?_, h3, h4⟩, ?_, ?_, ?_, ?_, by rw [hdel]⟩
    · rw [hdel]
      simpa using h2
    · rw [hdel]
      simpa [entryCand, htail] using hcnew
    · intro sh2 hsh2
      rw [hdel]
      simpa using hother sh2 hsh2
    · rw [hdel]
      simpa using hlen
    · intro i hi
      rw [hdel]
      simp [hi]
  · intro q hc
    obtain ⟨c2, hd⟩ : ∃ c2,
        deleteChain (secondaryHash k) (ht.table (k % ht.nlines)) = some c2 := by
      cases hd : deleteChain (secondaryHash k) (ht.table (k % ht.nlines)) with
      | some c2 => exact ⟨c2, rfl⟩
      | none =>
        rw [(deleteChain_none_iff _ _).mp hd] at hc
        exact absurd hc (by simp)
    obtain ⟨c₁, e₁, p, e₂, cr, h1, h2, h3, h4, hcold, hcnew, hother, hlen⟩ :=
      update_master (fun _ _ => .Unused) (secondaryHash k) _ c2
        (fun _ _ => rfl) (fun _ _ _ _ => rfl) hd
    rw [hc] at hcold
    have htail : (lineCands (secondaryHash k) e₂ ++
        if e₂.any Entry.isChain then chainCands (secondaryHash k) cr else []) = [] :=
      ((List.cons.injEq .. ▸ hcold).2).symm
    have hc2nil : chainCands (secondaryHash k) c2 = [] := by
      rw [hcnew, htail]
      simp [entryCand]
    have hdel : ht.delete k =
        (true, { ht with table := fun i =>
          if i = k % ht.nlines then c2 else ht.table i }) := by
      simp only [HT.delete, HT.bucketOf, hd]
    have hfst := delete_fst_iff (ht.delete k).snd k
    have hsnd : (ht.delete k).snd.table (k % (ht.delete k).snd.nlines) = c2 := by
      rw [hdel]
      simp
    rw [hsnd, hc2nil] at hfst
    simpa using hfst

/-- C4: Replace(k, p2) walks k's bucket chain as Lookup does.  When a
hash-matching Occupied entry exists it returns true and overwrites the pointer
of the FIRST such entry, leaving the stored secondary hash bits (and every
other entry, and every other bucket) unchanged; when none exists it performs
exactly the state change of Insert(k, p2) and returns false. -/
theorem replace_spec (ht : HT) (k p2 : Nat) (hp0 : p2 ≠ 0) (hpr : p2 < 2 ^ 47) :
    (chainCands (secondaryHash k) (ht.table (k % ht.nlines)) = [] →
       ht.replace k p2 = .ok (false, ht.insertRaw k p2) ∧
       ht.insert k p2 = .ok (ht.insertRaw k p2)) ∧
    (∀ q qs, chainCands (secondaryHash k) (ht.table (k % ht.nlines)) = q :: qs →
       ∃ ht2, ht.replace k p2 = .ok (true, ht2) ∧
         chainCands (secondaryHash k) (ht2.table (k % ht.nlines)) = p2 :: qs ∧
         (∃ c₁ e₁ e₂ cr,
            ht.table (k % ht.nlines) =
              c₁ ++ (e₁ ++ .Occupied (secondaryHash k) q :: e₂) :: cr ∧
            ht2.table (k % ht.nlines) =
              c₁ ++ (e₁ ++ .Occupied (secondaryHash k) p2 :: e₂) :: cr ∧
            (∀ l ∈ c₁, lineCands (secondaryHash k) l = [] ∧ l.any Entry.isChain = true) ∧
            (∀ x ∈ e₁, x.isChain = false ∧ entryMatches (secondaryHash k) x = false)) ∧
         (∀ sh2, sh2 ≠ secondaryHash k →
            chainCands sh2 (ht2.table (k % ht.nlines)) =
              chainCands sh2 (ht.table (k % ht.nlines))) ∧
         (∀ i, i ≠ k % ht.nlines → ht2.table i = ht.table i) ∧
         ht2.nlines = ht.nlines) := by
  obtain ⟨w, hw⟩ : ∃ w, pack (secondaryHash k) false p2 = .ok w :=
    ⟨_, by rw [pack, if_neg (by omega)]⟩
  constructor
  · intro hc
    constructor
    · simp only [HT.replace, HT.bucketOf, if_neg hp0, hw,
        (replaceChain_none_iff _ _ _).mpr hc]
    · simp only [HT.insert, if_neg hp0, hw]
  · intro q qs hc
    obtain ⟨c2, hd⟩ : ∃ c2,
        replaceChain (secondaryHash k) p2 (ht.table (k % ht.nlines)) = some c2 := by
      cases hd : replaceChain (secondaryHash k) p2 (ht.table (k % ht.nlines)) with
      | some c2 => exact ⟨c2, rfl⟩
      | none =>
        rw [(replaceChain_none_iff _ _ _).mp hd] at hc
        exact absurd hc (by simp)
    obtain ⟨c₁, e₁, p, e₂, cr, h1, h2, h3, h4, hcold, hcnew, hother, hlen⟩ :=
      update_master (fun h _ => .Occupied h p2) (secondaryHash k) _ c2
        (fun _ _ => rfl)
        (fun h0 p0 sh2 hs => by
          simp only [entryCand]
          exact if_neg fun hcc => hs hcc.symm) hd
    rw [hc] at hcold
    obtain ⟨rfl, htail⟩ : q = p ∧ qs = (lineCands (secondaryHash k) e₂ ++
        if e₂.any Entry.isChain then chainCands (secondaryHash k) cr else []) := by
      have := List.cons.injEq .. ▸ hcold
      exact ⟨this.1, this.2⟩
    refine ⟨{ ht with table := fun i => if i = k % ht.nlines then c2 else ht.table i },
      ?_, ?_, ⟨c₁, e₁, e₂, cr, h1, by simpa using h2, h3, h4⟩, ?_, ?_, rfl⟩
    · simp only [HT.replace, HT.bucketOf, if_neg hp0, hw, hd]
    · show chainCands (secondaryHash k)
        (if k % ht.nlines = k % ht.nlines then c2 else ht.table (k % ht.nlines)) = p2 :: qs
      rw [if_pos rfl, hcnew, ← htail]
      simp [entryCand]
    · intro sh2 hsh2
      simpa using hother sh2 hsh2
    · intro i hi
      simp [hi]

/-- Last line of a bucket chain (the terminal cache line). -/
def lastLine : List Line → Line
  | [] => []
  | [l] => l
  | _ :: l :: rest => lastLine (l :: rest)

theorem lastEntry_append_cons (a : Line) (x : Entry) (b : Line) :
    lastEntry (a ++ x :: b) = lastEntry (x :: b) := by
  induction a with
  | nil => rfl
  | cons a0 a1 ih =>
    cases a1 with
    | nil => rfl
    | cons a2 a3 => exact ih

theorem lastEntry_cons (x : Entry) (b : Line) :
    lastEntry (x :: b) = if b = [] then x else lastEntry b := by
  cases b with
  | nil => rfl
  | cons b0 b1 => simp [lastEntry]

theorem lastEntry_mem (l : Line) (h : l ≠ []) : lastEntry l ∈ l := by
  induction l with
  | nil => exact absurd rfl h
  | cons e rest ih =>
    cases rest with
    | nil => simp [lastEntry]
    | cons e2 rest2 =>
      simp only [lastEntry]
      exact List.mem_cons_of_mem _ (ih (by simp))

theorem dropLast_append_cons (a : Line) (x : Entry) (b : Line) :
    (a ++ x :: b).dropLast = a ++ (x :: b).dropLast := by
  induction a with
  | nil => rfl
  | cons a0 a1 ih =>
    cases a1 with
    | nil =>
      cases b with
      | nil => rfl
      | cons b0 b1 => rfl
    | cons a2 a3 =>
      show (a0 :: (a2 :: a3 ++ x :: b)).dropLast = _
      cases h : a2 :: a3 ++ x :: b with
      | nil => exact absurd h (by simp)
      | cons y ys =>
        simp only [List.dropLast_cons₂]
        rw [← h, ih]
        simp

theorem lastLine_append_cons (a : List Line) (x : Line) (b : List Line) :
    lastLine (a ++ x :: b) = lastLine (x :: b) := by
  induction a with
  | nil => rfl
  | cons a0 a1 ih =>
    cases a1 with
    | nil => rfl
    | cons a2 a3 => exact ih

theorem dropLast_append_lastLine (c : List Line) (h : c ≠ []) :
    c.dropLast ++ [lastLine c] = c := by
  induction c with
  | nil => exact absurd rfl h
  | cons l rest ih =>
    cases rest with
    | nil => rfl
    | cons l2 rest2 =>
      show (l :: l2 :: rest2).dropLast ++ [lastLine (l2 :: rest2)] = _
      rw [List.dropLast_cons₂]
      simp only [List.cons_append, List.cons.injEq, true_and]
      exact ih (by simp)

theorem dropLast_append_lastEntry (l : Line) (h : l ≠ []) :
    l.dropLast ++ [lastEntry l] = l := by
  induction l with
  | nil => exact absurd rfl h
  | cons e rest ih =>
    cases rest with
    | nil => rfl
    | cons e2 rest2 =>
      show (e :: e2 :: rest2).dropLast ++ [lastEntry (e2 :: rest2)] = _
      rw [List.dropLast_cons₂]
      simp only [List.cons_append, List.cons.injEq, true_and]
      exact ih (by simp)

theorem wfChain_cons_of_ne_nil (l : Line) (c : List Line) (h : c ≠ []) :
    wfChain (l :: c) = (wfLine l && (lastEntry l == .Chain) && wfChain c) := by
  cases c with
  | nil => exact absurd rfl h
  | cons l2 rest => rfl

theorem chainLinked_cons_of_ne_nil (l : Line) (c : List Line) (h : c ≠ []) :
    chainLinked (l :: c) = ((lastEntry l == .Chain) && chainLinked c) := by
  cases c with
  | nil => exact absurd rfl h
  | cons l2 rest => rfl

theorem wfChain_ne_nil (c : List Line) (h : wfChain c = true) : c ≠ [] := by
  intro hc
  subst hc
  exact Bool.noConfusion h

theorem wfChain_wfLine (c : List Line) (h : wfChain c = true) :
    ∀ l ∈ c, wfLine l = true := by
  induction c with
  | nil => simp
  | cons l rest ih =>
    intro l' hl'
    cases rest with
    | nil =>
      rcases List.mem_singleton.mp hl' with rfl
      simp only [wfChain, Bool.and_eq_true] at h
      exact h.1
    | cons l2 rest2 =>
      simp only [wfChain, Bool.and_eq_true] at h
      rcases List.mem_cons.mp hl' with rfl | hl2
      · exact h.1.1
      · exact ih h.2 l' hl2

theorem wfChain_terminal (c : List Line) (h : wfChain c = true) :
    (lastEntry (lastLine c)).isChain = false := by
  induction c with
  | nil => exact Bool.noConfusion h
  | cons l rest ih =>
    cases rest with
    | nil =>
      simp only [wfChain, Bool.and_eq_true] at h
      simpa [lastLine] using h.2
    | cons l2 rest2 =>
      simp only [wfChain, Bool.and_eq_true] at h
      exact ih h.2

theorem wfChain_chainLinked (c : List Line) (h : wfChain c = true) :
    chainLinked c = true := by
  induction c with
  | nil => rfl
  | cons l rest ih =>
    cases rest with
    | nil => rfl
    | cons l2 rest2 =>
      simp only [wfChain, Bool.and_eq_true] at h
      simp only [chainLinked, Bool.and_eq_true]
      exact ⟨h.1.2, ih h.2⟩

theorem wfLine_ne_nil (l : Line) (h : wfLine l = true) : l ≠ [] := by
  intro hc
  subst hc
  exact Bool.noConfusion h

theorem wfChain_dropLast_any (c : List Line) (h : wfChain c = true) :
    ∀ l ∈ c.dropLast, l.any Entry.isChain = true := by
  induction c with
  | nil => simp
  | cons l rest ih =>
    cases rest with
    | nil => simp
    | cons l2 rest2 =>
      simp only [wfChain, Bool.and_eq_true, beq_iff_eq] at h
      intro l' hl'
      rw [List.dropLast_cons₂] at hl'
      rcases List.mem_cons.mp hl' with rfl | hl2
      · have hne : l' ≠ [] := wfLine_ne_nil l' h.1.1
        refine List.any_eq_true.mpr ⟨lastEntry l', lastEntry_mem l' hne, ?_⟩
        rw [h.1.2]
        rfl
      · exact ih h.2 l' hl2

@[simp] theorem isChain_Unused : Entry.isChain .Unused = false := rfl

@[simp] theorem isChain_Occupied (h p : Nat) :
    Entry.isChain (.Occupied h p) = false := rfl

@[simp] theorem isChain_Chain : Entry.isChain .Chain = true := rfl

theorem wfLine_replace (e₁ : Line) (x y : Entry) (e₂ : Line)
    (hw : wfLine (e₁ ++ x :: e₂) = true) (hy : y.isChain = false) :
    wfLine (e₁ ++ y :: e₂) = true := by
  simp only [wfLine, Bool.and_eq_true, beq_iff_eq] at hw ⊢
  obtain ⟨hlen, hall⟩ := hw
  refine ⟨by simpa using hlen, ?_⟩
  rw [dropLast_append_cons] at hall ⊢
  cases e₂ with
  | nil => simpa using hall
  | cons b0 b1 =>
    simp only [List.dropLast_cons₂, List.all_append, List.all_cons,
      Bool.and_eq_true] at hall ⊢
    exact ⟨hall.1, by simp [hy], hall.2.2⟩

theorem wfChain_replaceLine (c₁ cr : List Line) (e₁ e₂ : Line) (x y : Entry)
    (hw : wfChain (c₁ ++ (e₁ ++ x :: e₂) :: cr) = true)
    (hx : x.isChain = false) (hy : y.isChain = false) :
    wfChain (c₁ ++ (e₁ ++ y :: e₂) :: cr) = true := by
  induction c₁ with
  | nil =>
    simp only [List.nil_append] at hw ⊢
    cases cr with
    | nil =>
      simp only [wfChain, Bool.and_eq_true] at hw ⊢
      refine ⟨wfLine_replace e₁ x y e₂ hw.1 hy, ?_⟩
      have hold := hw.2
      rw [lastEntry_append_cons, lastEntry_cons] at hold ⊢
      cases e₂ with
      | nil => simp [hy]
      | cons b0 b1 => simpa using hold
    | cons cr0 cr1 =>
      rw [wfChain_cons_of_ne_nil _ _ (by simp)] at hw ⊢
      simp only [Bool.and_eq_true, beq_iff_eq] at hw ⊢
      refine ⟨⟨wfLine_replace e₁ x y e₂ hw.1.1 hy, ?_⟩, hw.2⟩
      have hold := hw.1.2
      rw [lastEntry_append_cons, lastEntry_cons] at hold ⊢
      cases e₂ with
      | nil =>
        simp at hold
        rw [hold] at hx
        exact absurd hx (by simp)
      | cons b0 b1 => simpa using hold
  | cons c0 c₁ ih =>
    rw [List.cons_append, wfChain_cons_of_ne_nil _ _ (by simp)] at hw
    rw [List.cons_append, wfChain_cons_of_ne_nil _ _ (by simp)]
    simp only [Bool.and_eq_true] at hw ⊢
    exact ⟨hw.1, ih hw.2⟩

theorem firstUnusedLine_some (e : Entry) (l l2 : Line)
    (h : firstUnusedLine e l = some l2) :
    ∃ e₁ e₂, l = e₁ ++ .Unused :: e₂ ∧ l2 = e₁ ++ e :: e₂ ∧
      ∀ x ∈ e₁, x.isChain = false ∧ x ≠ .Unused := by
  induction l generalizing l2 with
  | nil => simp [firstUnusedLine] at h
  | cons x0 rest ih =>
    cases x0 with
    | Unused =>
      simp only [firstUnusedLine, Option.some.injEq] at h
      exact ⟨[], rest, rfl, by simp [← h], by simp⟩
    | Chain => simp [firstUnusedLine] at h
    | Occupied hh pp =>
      simp only [firstUnusedLine, Option.map_eq_some'] at h
      obtain ⟨l2', hl2', rfl⟩ := h
      obtain ⟨e₁, e₂, h1, h2, h3⟩ := ih l2' hl2'
      refine ⟨.Occupied hh pp :: e₁, e₂, by simp [h1], by simp [h2], ?_⟩
      intro z hz
      rcases List.mem_cons.mp hz with rfl | hz2
      · exact ⟨rfl, by simp⟩
      · exact h3 z hz2

theorem fillFirstUnused_some (e : Entry) (c c2 : List Line)
    (h : fillFirstUnused e c = some c2) :
    ∃ c₁ l l2 cr, c = c₁ ++ l :: cr ∧ c2 = c₁ ++ l2 :: cr ∧
      firstUnusedLine e l = some l2 ∧
      ∀ l' ∈ c₁, firstUnusedLine e l' = none ∧ l'.any Entry.isChain = true := by
  induction c generalizing c2 with
  | nil => simp [fillFirstUnused] at h
  | cons l rest ih =>
    simp only [fillFirstUnused] at h
    cases hu : firstUnusedLine e l with
    | some l2 =>
      rw [hu] at h
      obtain rfl : l2 :: rest = c2 := by simpa using h
      exact ⟨[], l, l2, rest, rfl, rfl, hu, by simp⟩
    | none =>
      rw [hu] at h
      cases hany : l.any Entry.isChain with
      | false => simp [hany] at h
      | true =>
        simp only [hany, if_pos, Option.map_eq_some'] at h
        obtain ⟨cr2, hcr2, rfl⟩ := h
        obtain ⟨c₁, l0, l2, cr, h1, h2, h3, h4⟩ := ih cr2 hcr2
        refine ⟨l :: c₁, l0, l2, cr, by simp [h1], by simp [h2], h3, ?_⟩
        intro l' hl'
        rcases List.mem_cons.mp hl' with rfl | hl2
        · exact ⟨hu, hany⟩
        · exact h4 l' hl2

theorem firstUnusedLine_none_of_noUnused (e : Entry) (l : Line)
    (h : Entry.Unused ∉ l) : firstUnusedLine e l = none := by
  induction l with
  | nil => rfl
  | cons x rest ih =>
    cases x with
    | Unused => exact absurd (List.mem_cons_self _ _) h
    | Chain => rfl
    | Occupied hh pp =>
      simp only [firstUnusedLine]
      rw [ih fun hm => h (List.mem_cons_of_mem _ hm)]
      rfl

theorem fillFirstUnused_none_of_noUnused (e : Entry) (c : List Line)
    (h : ∀ l ∈ c, Entry.Unused ∉ l) : fillFirstUnused e c = none := by
  induction c with
  | nil => rfl
  | cons l rest ih =>
    simp only [fillFirstUnused,
      firstUnusedLine_none_of_noUnused e l (h l (List.mem_cons_self _ _))]
    rw [ih fun l' hl' => h l' (List.mem_cons_of_mem _ hl')]
    cases hany : l.any Entry.isChain <;> simp

theorem growChain_ne_nil (e : Entry) (c : List Line) : growChain e c ≠ [] := by
  cases c with
  | nil => simp [growChain]
  | cons l rest => cases rest <;> simp [growChain]

theorem growChain_eq (e : Entry) (c : List Line) (h : c ≠ []) :
    growChain e c = c.dropLast ++
      [setLastToChain (lastLine c), newOverflowLine (lastEntry (lastLine c)) e] := by
  induction c with
  | nil => exact absurd rfl h
  | cons l rest ih =>
    cases rest with
    | nil => rfl
    | cons l2 rest2 =>
      show l :: growChain e (l2 :: rest2) = _
      rw [ih (by simp), List.dropLast_cons₂]
      rfl

theorem wfLine_setLast (l : Line) (hw : wfLine l = true) :
    wfLine (setLastToChain l) = true := by
  simp only [wfLine, Bool.and_eq_true, beq_iff_eq] at hw ⊢
  obtain ⟨hlen, hall⟩ := hw
  have hne : l ≠ [] := by intro hc; subst hc; simp at hlen
  constructor
  · simp only [setLastToChain, List.length_append, List.length_dropLast, hlen,
      List.length_cons, List.length_nil]
  · have hdl : (setLastToChain l).dropLast = l.dropLast := by
      simp only [setLastToChain]
      rw [dropLast_append_cons]
      simp
    rw [hdl]
    exact hall

theorem lastEntry_setLast (l : Line) : lastEntry (setLastToChain l) = .Chain := by
  simp only [setLastToChain]
  rw [lastEntry_append_cons]
  rfl

theorem wfLine_newOverflow (d e : Entry) (he : e.isChain = false) :
    wfLine (newOverflowLine d e) = true := by
  cases d with
  | Occupied h p =>
    show wfLine
      [.Occupied h p, e, .Unused, .Unused, .Unused, .Unused, .Unused, .Unused] = true
    simp [wfLine, List.dropLast, he]
  | Unused =>
    show wfLine
      [e, .Unused, .Unused, .Unused, .Unused, .Unused, .Unused, .Unused] = true
    simp [wfLine, List.dropLast, he]
  | Chain =>
    show wfLine
      [e, .Unused, .Unused, .Unused, .Unused, .Unused, .Unused, .Unused] = true
    simp [wfLine, List.dropLast, he]

theorem lastEntry_newOverflow (d e : Entry) :
    (lastEntry (newOverflowLine d e)).isChain = false := by
  cases d <;> rfl

theorem wf_grow (e : Entry) (c : List Line) (he : e.isChain = false)
    (hw : wfChain c = true) : wfChain (growChain e c) = true := by
  induction c with
  | nil => exact Bool.noConfusion hw
  | cons l rest ih =>
    cases rest with
    | nil =>
      simp only [wfChain, Bool.and_eq_true] at hw
      show wfChain [setLastToChain l, newOverflowLine (lastEntry l) e] = true
      rw [wfChain_cons_of_ne_nil _ _ (by simp)]
      simp only [wfChain, Bool.and_eq_true, beq_iff_eq]
      exact ⟨⟨wfLine_setLast l hw.1, lastEntry_setLast l⟩,
        wfLine_newOverflow _ e he, by simp [lastEntry_newOverflow]⟩
    | cons l2 rest2 =>
      show wfChain (l :: growChain e (l2 :: rest2)) = true
      rw [wfChain_cons_of_ne_nil _ _ (growChain_ne_nil e _)]
      rw [wfChain_cons_of_ne_nil _ _ (by simp)] at hw
      simp only [Bool.and_eq_true] at hw ⊢
      exact ⟨hw.1, ih hw.2⟩

theorem wf_fill (e : Entry) (c c2 : List Line) (he : e.isChain = false)
    (hw : wfChain c = true) (h : fillFirstUnused e c = some c2) :
    wfChain c2 = true := by
  obtain ⟨c₁, l, l2, cr, h1, h2, hline, hpre⟩ := fillFirstUnused_some e c c2 h
  obtain ⟨e₁, e₂, h3, h4, he₁⟩ := firstUnusedLine_some e l l2 hline
  subst h3
  subst h4
  subst h1
  subst h2
  exact wfChain_replaceLine c₁ cr e₁ e₂ .Unused e hw rfl he

theorem wf_insertChain (sh p : Nat) (c : List Line) (hw : wfChain c = true) :
    wfChain (insertChain sh p c) = true := by
  unfold insertChain
  cases hf : fillFirstUnused (.Occupied sh p) c with
  | some c2 => exact wf_fill (.Occupied sh p) c c2 rfl hw hf
  | none => exact wf_grow (.Occupied sh p) c rfl hw

theorem wf_update (f : Nat → Nat → Entry) (sh : Nat) (c c2 : List Line)
    (hf : ∀ h0 p0, (f h0 p0).isChain = false)
    (hw : wfChain c = true) (h : updateMatchChain f sh c = some c2) :
    wfChain c2 = true := by
  obtain ⟨c₁, e₁, p, e₂, cr, h1, h2, h3, h4⟩ := updateMatchChain_some f sh c c2 h
  subst h1
  subst h2
  exact wfChain_replaceLine c₁ cr e₁ e₂ _ _ hw rfl (hf sh p)

theorem insert_ok (ht : HT) (k p : Nat) (ht2 : HT)
    (h : ht.insert k p = .ok ht2) : ht2 = ht.insertRaw k p := by
  unfold HT.insert at h
  split at h
  · exact absurd h (by simp)
  · cases hpk : pack (secondaryHash k) false p with
    | error e => rw [hpk] at h; exact absurd h (by simp)
    | ok w => rw [hpk] at h; exact (Except.ok.inj h).symm

theorem wf_table_update (ht : HT) (b : Nat) (c2 : List Line)
    (hw : ht.wf) (hc2 : wfChain c2 = true) :
    ∀ i, wfChain ((fun i => if i = b then c2 else ht.table i) i) = true := by
  intro i
  by_cases hib : i = b
  · simpa [hib] using hc2
  · simpa [hib] using hw i

theorem wf_insertRaw (ht : HT) (k p : Nat) (hw : ht.wf) :
    (ht.insertRaw k p).wf ∧ (ht.insertRaw k p).nlines = ht.nlines := by
  refine ⟨?_, rfl⟩
  intro i
  show wfChain (if i = ht.bucketOf k
    then insertChain (secondaryHash k) p (ht.table i) else ht.table i) = true
  by_cases hib : i = ht.bucketOf k
  · rw [if_pos hib]
    exact wf_insertChain _ _ _ (hw i)
  · rw [if_neg hib]
    exact hw i

theorem wf_applyOp (ht : HT) (op : Op) (hw : ht.wf) :
    (applyOp ht op).wf ∧ (applyOp ht op).nlines = ht.nlines := by
  cases op with
  | ins k p =>
    cases hik : ht.insert k p with
    | error e =>
      have happ : applyOp ht (.ins k p) = ht := by simp only [applyOp, hik]
      rw [happ]
      exact ⟨hw, rfl⟩
    | ok ht2 =>
      obtain rfl := insert_ok ht k p ht2 hik
      have happ : applyOp ht (.ins k p) = ht.insertRaw k p := by
        simp only [applyOp, hik]
      rw [happ]
      exact wf_insertRaw ht k p hw
  | del k =>
    cases hd : deleteChain (secondaryHash k) (ht.table (ht.bucketOf k)) with
    | none =>
      have happ : applyOp ht (.del k) = ht := by simp only [applyOp, HT.delete, hd]
      rw [happ]
      exact ⟨hw, rfl⟩
    | some c2 =>
      have happ : applyOp ht (.del k) =
          { ht with table := fun i => if i = ht.bucketOf k then c2 else ht.table i } := by
        simp only [applyOp, HT.delete, hd]
      rw [happ]
      exact ⟨wf_table_update ht _ c2 hw
        (wf_update (fun _ _ => .Unused) (secondaryHash k) _ c2
          (fun _ _ => rfl) (hw _) hd), rfl⟩
  | rep k p =>
    by_cases hp0 : p = 0
    · have happ : applyOp ht (.rep k p) = ht := by
        simp only [applyOp, HT.replace, if_pos hp0]
      rw [happ]
      exact ⟨hw, rfl⟩
    · cases hpk : pack (secondaryHash k) false p with
      | error e =>
        have happ : applyOp ht (.rep k p) = ht := by
          simp only [applyOp, HT.replace, if_neg hp0, hpk]
        rw [happ]
        exact ⟨hw, rfl⟩
      | ok w =>
        cases hr : replaceChain (secondaryHash k) p (ht.table (ht.bucketOf k)) with
        | some c2 =>
          have happ : applyOp ht (.rep k p) =
              { ht with table := fun i =>
                if i = ht.bucketOf k then c2 else ht.table i } := by
            simp only [applyOp, HT.replace, if_neg hp0, hpk, hr]
          rw [happ]
          exact ⟨wf_table_update ht _ c2 hw
            (wf_update (fun h0 _ => .Occupied h0 p) (secondaryHash k) _ c2
              (fun _ _ => rfl) (hw _) hr), rfl⟩
        | none =>
          have happ : applyOp ht (.rep k p) = ht.insertRaw k p := by
            simp only [applyOp, HT.replace, if_neg hp0, hpk, hr]
          rw [happ]
          exact wf_insertRaw ht k p hw

theorem wf_applyOps (ht : HT) (ops : List Op) (hw : ht.wf) :
    (applyOps ht ops).wf ∧ (applyOps ht ops).nlines = ht.nlines := by
  induction ops generalizing ht with
  | nil => exact ⟨hw, rfl⟩
  | cons op ops ih =>
    obtain ⟨w1, n1⟩ := wf_applyOp ht op hw
    obtain ⟨w2, n2⟩ := ih (applyOp ht op) w1
    refine ⟨?_, ?_⟩
    · show (applyOps (applyOp ht op) ops).wf
      exact w2
    · show (applyOps (applyOp ht op) ops).nlines = ht.nlines
      rw [n2, n1]

theorem lastLine_mem (c : List Line) (h : c ≠ []) : lastLine c ∈ c := by
  induction c with
  | nil => exact absurd rfl h
  | cons l rest ih =>
    cases rest with
    | nil => simp [lastLine]
    | cons l2 rest2 =>
      simp only [lastLine]
      exact List.mem_cons_of_mem _ (ih (by simp))

theorem wfLine_dropLast_nochain (l : Line) (hw : wfLine l = true) :
    ∀ y ∈ l.dropLast, y.isChain = false := by
  simp only [wfLine, Bool.and_eq_true] at hw
  intro y hy
  have := List.all_eq_true.mp hw.2 y hy
  simpa using this

theorem chainCands_cons_any (sh : Nat) (l : Line) (rest : List Line)
    (h : l.any Entry.isChain = true) :
    chainCands sh (l :: rest) = lineCands sh l ++ chainCands sh rest := by
  simp [chainCands, h]

theorem chainCands_single (sh : Nat) (t : Line) :
    chainCands sh [t] = lineCands sh t := by
  cases hany : t.any Entry.isChain <;> simp [chainCands, hany]

theorem chainCands_append_chained (sh : Nat) (c₁ r : List Line)
    (h : ∀ l ∈ c₁, l.any Entry.isChain = true) :
    chainCands sh (c₁ ++ r) = candsOfPrefix sh c₁ ++ chainCands sh r := by
  induction c₁ with
  | nil => simp [candsOfPrefix]
  | cons l c₁ ih =>
    rw [List.cons_append, chainCands_cons_any sh _ _ (h l (List.mem_cons_self _ _)),
      ih fun l' hl' => h l' (List.mem_cons_of_mem _ hl')]
    simp [candsOfPrefix, List.append_assoc]

theorem lineCands_cons_nonchain (sh : Nat) (e : Entry) (r : Line)
    (he : e.isChain = false) :
    lineCands sh (e :: r) = entryCand sh e ++ lineCands sh r := by
  cases e with
  | Unused => simp [lineCands, entryCand]
  | Chain => simp at he
  | Occupied hh pp => by_cases hsh : hh = sh <;> simp [lineCands, entryCand, hsh]

theorem lineCands_replicate_unused (sh n : Nat) :
    lineCands sh (List.replicate n .Unused) = [] := by
  induction n with
  | zero => rfl
  | succ n ih => simpa [List.replicate_succ, lineCands] using ih

theorem lineCands_append_chainstop (sh : Nat) (a b : Line)
    (ha : ∀ y ∈ a, y.isChain = false) :
    lineCands sh (a ++ .Chain :: b) = lineCands sh a := by
  induction a with
  | nil => rfl
  | cons a0 a1 ih =>
    have h0 := ha a0 (List.mem_cons_self _ _)
    have hrest := fun y hy => ha y (List.mem_cons_of_mem _ hy)
    rw [List.cons_append, lineCands_cons_nonchain sh a0 _ h0,
      lineCands_cons_nonchain sh a0 _ h0, ih hrest]

theorem lineCands_newOverflow (sh : Nat) (d e : Entry)
    (hd : d.isChain = false) (he : e.isChain = false) :
    lineCands sh (newOverflowLine d e) = entryCand sh d ++ entryCand sh e := by
  cases d with
  | Occupied hh pp =>
    show lineCands sh (.Occupied hh pp :: e :: List.replicate 6 .Unused) = _
    rw [lineCands_cons_nonchain sh _ _ (by simp), lineCands_cons_nonchain sh _ _ he,
      lineCands_replicate_unused]
    simp
  | Unused =>
    show lineCands sh (e :: List.replicate 7 .Unused) = _
    rw [lineCands_cons_nonchain sh _ _ he, lineCands_replicate_unused]
    simp [entryCand]
  | Chain => simp at hd

theorem chainCands_grow (sh : Nat) (e : Entry) (c : List Line)
    (hw : wfChain c = true) (he : e.isChain = false) :
    chainCands sh (growChain e c) = chainCands sh c ++ entryCand sh e := by
  have hne := wfChain_ne_nil c hw
  have hdany := wfChain_dropLast_any c hw
  have hwl : wfLine (lastLine c) = true := wfChain_wfLine c hw _ (lastLine_mem c hne)
  have hterm : (lastEntry (lastLine c)).isChain = false := wfChain_terminal c hw
  have hdlnc : ∀ y ∈ (lastLine c).dropLast, y.isChain = false :=
    wfLine_dropLast_nochain _ hwl
  have hlne : lastLine c ≠ [] := wfLine_ne_nil _ hwl
  rw [growChain_eq e c hne, chainCands_append_chained sh _ _ hdany]
  conv_rhs => rw [← dropLast_append_lastLine c hne]
  rw [chainCands_append_chained sh _ _ hdany, List.append_assoc]
  congr 1
  have hsetany : (setLastToChain (lastLine c)).any Entry.isChain = true :=
    List.any_eq_true.mpr ⟨.Chain, by simp [setLastToChain], rfl⟩
  rw [chainCands_cons_any sh _ _ hsetany, chainCands_single, chainCands_single]
  show lineCands sh ((lastLine c).dropLast ++ .Chain :: []) ++ _ = _
  rw [lineCands_append_chainstop sh _ _ hdlnc, lineCands_newOverflow sh _ e hterm he]
  conv_rhs => rw [← dropLast_append_lastEntry (lastLine c) hlne]
  rw [lineCands_decomp sh _ (lastEntry (lastLine c)) [] hdlnc hterm]
  simp [lineCands, List.append_assoc]

theorem chainCands_fill (sh : Nat) (e : Entry) (c c2 : List Line)
    (he : e.isChain = false) (h : fillFirstUnused e c = some c2) :
    ∃ A B, chainCands sh c = A ++ B ∧
      chainCands sh c2 = A ++ (entryCand sh e ++ B) := by
  obtain ⟨c₁, l, l2, cr, h1, h2, hline, hpre⟩ := fillFirstUnused_some e c c2 h
  obtain ⟨e₁, e₂, h3, h4, he₁⟩ := firstUnusedLine_some e l l2 hline
  subst h3
  subst h4
  subst h1
  subst h2
  have hc₁ : ∀ l' ∈ c₁, l'.any Entry.isChain = true := fun l' hl' => (hpre l' hl').2
  have he₁c : ∀ y ∈ e₁, y.isChain = false := fun y hy => (he₁ y hy).1
  have hdold := chainCands_decomp sh c₁ e₁ .Unused e₂ cr hc₁ he₁c rfl
  have hdnew := chainCands_decomp sh c₁ e₁ e e₂ cr hc₁ he₁c he
  refine ⟨candsOfPrefix sh c₁ ++ lineCands sh e₁,
    lineCands sh e₂ ++ if e₂.any Entry.isChain then chainCands sh cr else [],
    ?_, ?_⟩
  · rw [hdold]
    simp [entryCand, List.append_assoc]
  · rw [hdnew]
    simp [List.append_assoc]

theorem chainCands_insert (sh sh2 p2 : Nat) (c : List Line)
    (hw : wfChain c = true) :
    ∃ A B, chainCands sh c = A ++ B ∧
      chainCands sh (insertChain sh2 p2 c) =
        A ++ (entryCand sh (.Occupied sh2 p2) ++ B) := by
  unfold insertChain
  cases hf : fillFirstUnused (.Occupied sh2 p2) c with
  | some c2 => exact chainCands_fill sh _ c c2 rfl hf
  | none =>
    refine ⟨chainCands sh c, [], by simp, ?_⟩
    rw [chainCands_grow sh (.Occupied sh2 p2) c hw rfl]
    simp

theorem mem_cands_insertRaw (ht : HT) (k k2 p p2 : Nat) (hw : ht.wf)
    (hmem : p ∈ chainCands (secondaryHash k) (ht.table (k % ht.nlines))) :
    p ∈ chainCands (secondaryHash k) ((ht.insertRaw k2 p2).table (k % ht.nlines)) := by
  show p ∈ chainCands (secondaryHash k)
    (if k % ht.nlines = ht.bucketOf k2
     then insertChain (secondaryHash k2) p2 (ht.table (k % ht.nlines))
     else ht.table (k % ht.nlines))
  by_cases hb : k % ht.nlines = ht.bucketOf k2
  · rw [if_pos hb]
    obtain ⟨A, B, hAB, hAB2⟩ :=
      chainCands_insert (secondaryHash k) (secondaryHash k2) p2
        (ht.table (k % ht.nlines)) (hw _)
    rw [hAB2]
    rw [hAB] at hmem
    rcases List.mem_append.mp hmem with h | h
    · exact List.mem_append.mpr (Or.inl h)
    · exact List.mem_append.mpr (Or.inr (List.mem_append.mpr (Or.inr h)))
  · rw [if_neg hb]
    exact hmem

theorem self_mem_insertRaw (ht : HT) (k p : Nat) (hw : ht.wf) :
    p ∈ chainCands (secondaryHash k) ((ht.insertRaw k p).table (k % ht.nlines)) := by
  show p ∈ chainCands (secondaryHash k)
    (if k % ht.nlines = k % ht.nlines
     then insertChain (secondaryHash k) p (ht.table (k % ht.nlines))
     else ht.table (k % ht.nlines))
  rw [if_pos rfl]
  obtain ⟨A, B, hAB, hAB2⟩ :=
    chainCands_insert (secondaryHash k) (secondaryHash k) p
      (ht.table (k % ht.nlines)) (hw _)
  rw [hAB2]
  have hself : p ∈ entryCand (secondaryHash k) (.Occupied (secondaryHash k) p) := by
    simp [entryCand]
  exact List.mem_append.mpr (Or.inr (List.mem_append.mpr (Or.inl hself)))

theorem mem_cands_applyOp (ht : HT) (op : Op) (k p : Nat)
    (hw : ht.wf) (havoid : opAvoids k ht.nlines op)
    (hmem : p ∈ chainCands (secondaryHash k) (ht.table (k % ht.nlines))) :
    p ∈ chainCands (secondaryHash k) ((applyOp ht op).table (k % ht.nlines)) := by
  cases op with
  | ins k2 p2 =>
    cases hik : ht.insert k2 p2 with
    | error e =>
      have happ : applyOp ht (.ins k2 p2) = ht := by simp only [applyOp, hik]
      rw [happ]
      exact hmem
    | ok ht2 =>
      obtain rfl := insert_ok ht k2 p2 ht2 hik
      have happ : applyOp ht (.ins k2 p2) = ht.insertRaw k2 p2 := by
        simp only [applyOp, hik]
      rw [happ]
      exact mem_cands_insertRaw ht k k2 p p2 hw hmem
  | del k2 =>
    cases hd : deleteChain (secondaryHash k2) (ht.table (ht.bucketOf k2)) with
    | none =>
      have happ : applyOp ht (.del k2) = ht := by simp only [applyOp, HT.delete, hd]
      rw [happ]
      exact hmem
    | some c2 =>
      have happ : applyOp ht (.del k2) =
          { ht with table := fun i => if i = ht.bucketOf k2 then c2 else ht.table i } := by
        simp only [applyOp, HT.delete, hd]
      rw [happ]
      show p ∈ chainCands (secondaryHash k)
        (if k % ht.nlines = ht.bucketOf k2 then c2 else ht.table (k % ht.nlines))
      by_cases hb : k % ht.nlines = ht.bucketOf k2
      · rw [if_pos hb]
        have hshne : secondaryHash k ≠ secondaryHash k2 := by
          intro hc
          exact havoid ⟨hb.symm, hc.symm⟩
        obtain ⟨c₁, e₁, q, e₂, cr, h1, h2, h3, h4, hcold, hcnew, hother, hlen⟩ :=
          update_master (fun _ _ => .Unused) (secondaryHash k2) _ c2
            (fun _ _ => rfl) (fun _ _ _ _ => rfl) hd
        rw [hother (secondaryHash k) hshne, ← hb]
        exact hmem
      · rw [if_neg hb]
        exact hmem
  | rep k2 p2 =>
    by_cases hp0 : p2 = 0
    · have happ : applyOp ht (.rep k2 p2) = ht := by
        simp only [applyOp, HT.replace, if_pos hp0]
      rw [happ]
      exact hmem
    · cases hpk : pack (secondaryHash k2) false p2 with
      | error e =>
        have happ : applyOp ht (.rep k2 p2) = ht := by
          simp only [applyOp, HT.replace, if_neg hp0, hpk]
        rw [happ]
        exact hmem
      | ok w =>
        cases hr : replaceChain (secondaryHash k2) p2 (ht.table (ht.bucketOf k2)) with
        | some c2 =>
          have happ : applyOp ht (.rep k2 p2) =
              { ht with table := fun i =>
                if i = ht.bucketOf k2 then c2 else ht.table i } := by
            simp only [applyOp, HT.replace, if_neg hp0, hpk, hr]
          rw [happ]
          show p ∈ chainCands (secondaryHash k)
            (if k % ht.nlines = ht.bucketOf k2 then c2 else ht.table (k % ht.nlines))
          by_cases hb : k % ht.nlines = ht.bucketOf k2
          · rw [if_pos hb]
            have hshne : secondaryHash k ≠ secondaryHash k2 := by
              intro hc
              exact havoid ⟨hb.symm, hc.symm⟩
            obtain ⟨c₁, e₁, q, e₂, cr, h1, h2, h3, h4, hcold, hcnew, hother, hlen⟩ :=
              update_master (fun h0 _ => .Occupied h0 p2) (secondaryHash k2) _ c2
                (fun _ _ => rfl)
                (fun h0 p0 sh2 hs => by
                  simp only [entryCand]
                  exact if_neg fun hcc => hs hcc.symm) hr
            rw [hother (secondaryHash k) hshne, ← hb]
            exact hmem
          · rw [if_neg hb]
            exact hmem
        | none =>
          have happ : applyOp ht (.rep k2 p2) = ht.insertRaw k2 p2 := by
            simp only [applyOp, HT.replace, if_neg hp0, hpk, hr]
          rw [happ]
          exact mem_cands_insertRaw ht k k2 p p2 hw hmem

theorem wf_empty (n : Nat) : (HT.empty n).wf := by
  intro i
  show wfChain [emptyLine] = true
  decide

/-- C3: when Insert hits a bucket whose chain has no Unused slot, exactly one
new overflow cache line is allocated (chain length grows by one), the LAST
slot of the previously terminal line (necessarily Occupied) is converted to a
chain link to the new line, the displaced Occupied entry moves to slot 0 of
the new line and the new entry occupies the next slot; moreover every
operation preserves G3: within each bucket chain every cache line except
possibly the last ends with a chain link. -/
theorem insert_growth_and_invariant :
    (∀ sh p c, wfChain c = true → (∀ l ∈ c, Entry.Unused ∉ l) →
       ∃ h2 p2, lastEntry (lastLine c) = .Occupied h2 p2 ∧
         insertChain sh p c = c.dropLast ++
           [(lastLine c).dropLast ++ [.Chain],
            .Occupied h2 p2 :: .Occupied sh p :: List.replicate 6 .Unused] ∧
         (insertChain sh p c).length = c.length + 1) ∧
    (∀ ht, ht.wf → ∀ op i, chainLinked ((applyOp ht op).table i) = true) := by
  constructor
  · intro sh p c hw hnou
    have hfill : fillFirstUnused (.Occupied sh p) c = none :=
      fillFirstUnused_none_of_noUnused _ c hnou
    have hne : c ≠ [] := wfChain_ne_nil c hw
    have hlmem : lastLine c ∈ c := lastLine_mem c hne
    have hwl : wfLine (lastLine c) = true := wfChain_wfLine c hw _ hlmem
    have hlne : lastLine c ≠ [] := wfLine_ne_nil _ hwl
    have hle : lastEntry (lastLine c) ∈ lastLine c := lastEntry_mem _ hlne
    have hnu : lastEntry (lastLine c) ≠ .Unused :=
      fun hc => hnou _ hlmem (hc ▸ hle)
    have hnc : (lastEntry (lastLine c)).isChain = false := wfChain_terminal c hw
    obtain ⟨h2, p2, hocc⟩ : ∃ h2 p2, lastEntry (lastLine c) = .Occupied h2 p2 := by
      cases hlast : lastEntry (lastLine c) with
      | Unused => exact absurd hlast hnu
      | Chain => rw [hlast] at hnc; exact absurd hnc (by simp)
      | Occupied a b => exact ⟨a, b, rfl⟩
    refine ⟨h2, p2, hocc, ?_, ?_⟩
    · unfold insertChain
      rw [hfill, growChain_eq _ c hne, hocc]
      rfl
    · unfold insertChain
      rw [hfill, growChain_eq _ c hne]
      have hpos := List.length_pos.mpr hne
      simp only [List.length_append, List.length_dropLast, List.length_cons,
        List.length_nil]
      omega
  · intro ht hwf op i
    exact wfChain_chainLinked _ ((wf_applyOp ht op hwf).1 i)

/-- A cache line with all 8 slots Occupied, used to trigger chain growth. -/
def fullLine : Line :=
  [.Occupied 1 11, .Occupied 2 12, .Occupied 3 13, .Occupied 4 14,
   .Occupied 5 15, .Occupied 6 16, .Occupied 7 17, .Occupied 8 18]

theorem insert_growth_and_invariant_witness :
    (∃ h2 p2, lastEntry (lastLine [fullLine]) = .Occupied h2 p2 ∧
       insertChain 5 9 [fullLine] = [fullLine].dropLast ++
         [(lastLine [fullLine]).dropLast ++ [.Chain],
          .Occupied h2 p2 :: .Occupied 5 9 :: List.replicate 6 .Unused] ∧
       (insertChain 5 9 [fullLine]).length = [fullLine].length + 1) ∧
    chainLinked ((applyOp (HT.empty 1) (.ins 0 7)).table 0) = true :=
  ⟨insert_growth_and_invariant.1 5 9 [fullLine] (by decide) (by decide),
   insert_growth_and_invariant.2 (HT.empty 1) (wf_empty 1) (.ins 0 7) 0⟩

/-- C6 (amended): after a successful insert(k, p), any further sequence of
operations that contains no Delete or Replace of a key colliding with k on
BOTH the bucket index and the secondary hash (in particular none of Delete(k)
or Replace(k, _)) leaves a lookup(k) candidate whose pointer is p. -/
theorem insert_persists (ht : HT) (k p : Nat) (ops : List Op) (ht1 : HT)
    (hw : ht.wf) (hins : ht.insert k p = .ok ht1)
    (havoid : ∀ op ∈ ops, opAvoids k ht.nlines op) :
    p ∈ chainCands (secondaryHash k) ((applyOps ht1 ops).table (k % ht.nlines)) := by
  obtain rfl := insert_ok ht k p ht1 hins
  have main : ∀ (ops2 : List Op) (ht2 : HT), ht2.wf → ht2.nlines = ht.nlines →
      (∀ op ∈ ops2, opAvoids k ht.nlines op) →
      p ∈ chainCands (secondaryHash k) (ht2.table (k % ht.nlines)) →
      p ∈ chainCands (secondaryHash k) ((applyOps ht2 ops2).table (k % ht.nlines)) := by
    intro ops2
    induction ops2 with
    | nil => intro ht2 _ _ _ hm; exact hm
    | cons op ops2 ih =>
      intro ht2 hw2 hn2 hav hm
      show p ∈ chainCands (secondaryHash k)
        ((applyOps (applyOp ht2 op) ops2).table (k % ht.nlines))
      have hav0 : opAvoids k ht2.nlines op := by
        rw [hn2]
        exact hav op (List.mem_cons_self _ _)
      have hm0 : p ∈ chainCands (secondaryHash k) (ht2.table (k % ht2.nlines)) := by
        rw [hn2]
        exact hm
      have hstep := mem_cands_applyOp ht2 op k p hw2 hav0 hm0
      rw [hn2] at hstep
      exact ih (applyOp ht2 op) (wf_applyOp ht2 op hw2).1
        (by rw [(wf_applyOp ht2 op hw2).2, hn2])
        (fun o ho => hav o (List.mem_cons_of_mem _ ho)) hstep
  exact main ops (ht.insertRaw k p) (wf_insertRaw ht k p hw).1 rfl havoid
    (self_mem_insertRaw ht k p hw)

theorem insert_persists_witness :
    7 ∈ chainCands (secondaryHash 0)
      ((applyOps ((HT.empty 1).insertRaw 0 7) [Op.ins (2 ^ 20) 3]).table
        (0 % (HT.empty 1).nlines)) :=
  insert_persists (HT.empty 1) 0 7 [Op.ins (2 ^ 20) 3] ((HT.empty 1).insertRaw 0 7)
    (wf_empty 1) rfl
    (fun op hop => by
      rcases List.mem_singleton.mp hop with rfl
      trivial)

/-- Counterexample to C6 as stated: insert(0, 1) into a one-bucket table, then
delete key 2^20 — an operation that is neither delete(0) nor replace(0, _) —
after which no lookup(0) candidate returns 1, because key 2^20 collides with
key 0 on both the bucket index and the secondary hash and Delete matches on
the hash alone. -/
theorem insert_persists_counterexample :
    (HT.empty 1).insert 0 1 = .ok ((HT.empty 1).insertRaw 0 1) ∧
    Op.del (2 ^ 20) ≠ Op.del 0 ∧
    1 ∉ chainCands (secondaryHash 0)
      ((applyOps ((HT.empty 1).insertRaw 0 1) [Op.del (2 ^ 20)]).table
        (0 % (HT.empty 1).nlines)) :=
  ⟨rfl, by decide, by decide⟩

/-- C7: an Insert or Replace whose pointer has any non-zero bit above the low
47 bits fails with PointerOutOfRange at pack time (the operation yields an
error and produces no new table state), and packing an in-range pointer never
fails. -/
theorem pointer_out_of_range (ht : HT) (k p : Nat) :
    (2 ^ 47 ≤ p →
       pack (secondaryHash k) false p = .error .PointerOutOfRange ∧
       ht.insert k p = .error .PointerOutOfRange ∧
       ht.replace k p = .error .PointerOutOfRange) ∧
    (p < 2 ^ 47 → ∀ h c, ∃ w, pack h c p = .ok w) := by
  constructor
  · intro hp
    have hpk : pack (secondaryHash k) false p = .error .PointerOutOfRange := by
      rw [pack, if_pos hp]
    have hp0 : p ≠ 0 := by
      intro hc
      subst hc
      exact absurd hp (by decide)
    exact ⟨hpk, by simp only [HT.insert, if_neg hp0, hpk],
      by simp only [HT.replace, if_neg hp0, hpk]⟩
  · intro hp h c
    exact ⟨_, by rw [pack, if_neg (Nat.not_le.mpr hp)]⟩

theorem pointer_out_of_range_witness :
    ((HT.empty 1).insert 3 (2 ^ 47) = .error .PointerOutOfRange) ∧
    ∃ w, pack 0 false 5 = .ok w :=
  ⟨((pointer_out_of_range (HT.empty 1) 3 (2 ^ 47)).1 (by decide)).2.1,
   (pointer_out_of_range (HT.empty 1) 3 5).2 (by decide) 0 false⟩

/-- The number of histogram bins (Hashtable.h, PerfDistribution::NBINS). -/
def NBINS : Nat := 5000

/-- The width of each histogram bin (Hashtable.h, PerfDistribution::BIN_WIDTH). -/
def BIN_WIDTH : Nat := 10

/-- The per-lookup cycle histogram of Hashtable.h (struct PerfDistribution):
frequency bins, an overflow counter, and the minimum and maximum sample. -/
structure PerfDistribution where
  bins : Nat → Nat
  binOverflows : Nat
  min : Nat
  max : Nat

/-- Modelled from the spec: the PerfDistribution constructor is not under
src/.  Bins and the overflow counter start at zero; min starts as the
all-ones 64-bit value and max as zero (Hashtable.h doc comments and spec
section 4.5). -/
def PerfDistribution.init : PerfDistribution :=
  { bins := fun _ => 0, binOverflows := 0, min := 2 ^ 64 - 1, max := 0 }

/-- Modelled from the spec: PerfDistribution::storeSample is not under src/.
A sample x increments bins[x / BIN_WIDTH] when x < NBINS * BIN_WIDTH and the
overflow counter otherwise; min and max track the least and greatest sample
(spec section 4.5). -/
def storeSample (d : PerfDistribution) (value : Nat) : PerfDistribution :=
  let d1 :=
    if value < NBINS * BIN_WIDTH then
      { d with bins := fun i => if i = value / BIN_WIDTH then d.bins i + 1 else d.bins i }
    else { d with binOverflows := d.binOverflows + 1 }
  { d1 with min := Nat.min d1.min value, max := Nat.max d1.max value }

/-- Store a list of samples in order. -/
def storeSamples (d : PerfDistribution) (xs : List Nat) : PerfDistribution :=
  xs.foldl storeSample d

theorem storeSample_min (d : PerfDistribution) (v : Nat) :
    (storeSample d v).min = Nat.min d.min v := by
  by_cases h : v < NBINS * BIN_WIDTH <;> simp [storeSample, h]

theorem storeSample_max (d : PerfDistribution) (v : Nat) :
    (storeSample d v).max = Nat.max d.max v := by
  by_cases h : v < NBINS * BIN_WIDTH <;> simp [storeSample, h]

theorem storeSamples_min (xs : List Nat) (d : PerfDistribution) :
    (storeSamples d xs).min = xs.foldl Nat.min d.min := by
  induction xs generalizing d with
  | nil => rfl
  | cons x xs ih =>
    show (storeSamples (storeSample d x) xs).min = _
    rw [ih, storeSample_min]
    rfl

theorem storeSamples_max (xs : List Nat) (d : PerfDistribution) :
    (storeSamples d xs).max = xs.foldl Nat.max d.max := by
  induction xs generalizing d with
  | nil => rfl
  | cons x xs ih =>
    show (storeSamples (storeSample d x) xs).max = _
    rw [ih, storeSample_max]
    rfl

theorem foldl_min_le_init (xs : List Nat) (a : Nat) : xs.foldl Nat.min a ≤ a := by
  induction xs generalizing a with
  | nil => exact Nat.le_refl a
  | cons x xs ih =>
    exact Nat.le_trans (ih (Nat.min a x)) (Nat.min_le_left a x)

theorem foldl_min_le_mem (xs : List Nat) (a : Nat) :
    ∀ x ∈ xs, xs.foldl Nat.min a ≤ x := by
  induction xs generalizing a with
  | nil => simp
  | cons y ys ih =>
    intro x hx
    rcases List.mem_cons.mp hx with rfl | hx2
    · exact Nat.le_trans (foldl_min_le_init ys (Nat.min a x)) (Nat.min_le_right a x)
    · exact ih (Nat.min a y) x hx2

theorem foldl_min_mem_or (xs : List Nat) (a : Nat) :
    xs.foldl Nat.min a = a ∨ xs.foldl Nat.min a ∈ xs := by
  induction xs generalizing a with
  | nil => exact Or.inl rfl
  | cons y ys ih =>
    rcases ih (Nat.min a y) with h | h
    · by_cases hay : a ≤ y
      · exact Or.inl
          (by rw [List.foldl_cons, h]; unfold Nat.min; exact min_eq_left hay)
      · refine Or.inr ?_
        rw [List.foldl_cons, h,
          show a.min y = y by unfold Nat.min; exact min_eq_right (le_of_not_le hay)]
        exact List.mem_cons_self _ _
    · exact Or.inr (List.mem_cons_of_mem _ h)

theorem foldl_max_ge_init (xs : List Nat) (a : Nat) : a ≤ xs.foldl Nat.max a := by
  induction xs generalizing a with
  | nil => exact Nat.le_refl a
  | cons x xs ih =>
    exact Nat.le_trans (Nat.le_max_left a x) (ih (Nat.max a x))

theorem foldl_max_ge_mem (xs : List Nat) (a : Nat) :
    ∀ x ∈ xs, x ≤ xs.foldl Nat.max a := by
  induction xs generalizing a with
  | nil => simp
  | cons y ys ih =>
    intro x hx
    rcases List.mem_cons.mp hx with rfl | hx2
    · exact Nat.le_trans (Nat.le_max_right a x) (foldl_max_ge_init ys (Nat.max a x))
    · exact ih (Nat.max a y) x hx2

theorem foldl_max_mem_or (xs : List Nat) (a : Nat) :
    xs.foldl Nat.max a = a ∨ xs.foldl Nat.max a ∈ xs := by
  induction xs generalizing a with
  | nil => exact Or.inl rfl
  | cons y ys ih =>
    rcases ih (Nat.max a y) with h | h
    · by_cases hay : a ≤ y
      · refine Or.inr ?_
        rw [List.foldl_cons, h,
          show a.max y = y by unfold Nat.max; exact max_eq_right hay]
        exact List.mem_cons_self _ _
      · exact Or.inl
          (by rw [List.foldl_cons, h]; unfold Nat.max; exact max_eq_left (le_of_not_le hay))
    · exact Or.inr (List.mem_cons_of_mem _ h)

/-- C8: the histogram has NBINS = 5000 and BIN_WIDTH = 10; storing a sample x
increments bins[x / BIN_WIDTH] when x < NBINS * BIN_WIDTH and the overflow
counter otherwise, touching nothing else; before any sample is stored min is
the all-ones 64-bit value and max is zero, and after storing any nonempty
list of 64-bit samples min is the least and max the greatest sample seen. -/
theorem perf_distribution_spec :
    (NBINS = 5000 ∧ BIN_WIDTH = 10 ∧
     PerfDistribution.init.min = 2 ^ 64 - 1 ∧ PerfDistribution.init.max = 0) ∧
    (∀ d x, x < NBINS * BIN_WIDTH →
       (storeSample d x).bins (x / BIN_WIDTH) = d.bins (x / BIN_WIDTH) + 1 ∧
       (∀ i, i ≠ x / BIN_WIDTH → (storeSample d x).bins i = d.bins i) ∧
       (storeSample d x).binOverflows = d.binOverflows) ∧
    (∀ d x, NBINS * BIN_WIDTH ≤ x →
       (storeSample d x).binOverflows = d.binOverflows + 1 ∧
       ∀ i, (storeSample d x).bins i = d.bins i) ∧
    (∀ xs, xs ≠ [] → (∀ x ∈ xs, x < 2 ^ 64) →
       ((storeSamples PerfDistribution.init xs).min ∈ xs ∧
        ∀ x ∈ xs, (storeSamples PerfDistribution.init xs).min ≤ x) ∧
       ((storeSamples PerfDistribution.init xs).max ∈ xs ∧
        ∀ x ∈ xs, x ≤ (storeSamples PerfDistribution.init xs).max)) := by
  refine ⟨⟨rfl, rfl, rfl, rfl⟩, ?_, ?_, ?_⟩
  · intro d x hx
    refine ⟨?_, ?_, ?_⟩
    · simp [storeSample, hx]
    · intro i hi
      simp [storeSample, hx, hi]
    · simp [storeSample, hx]
  · intro d x hx
    have hx2 : ¬x < NBINS * BIN_WIDTH := Nat.not_lt.mpr hx
    exact ⟨by simp [storeSample, hx2], fun i => by simp [storeSample, hx2]⟩
  · intro xs hne hbound
    obtain ⟨x0, hx0⟩ := List.exists_mem_of_ne_nil xs hne
    constructor
    · rw [storeSamples_min]
      refine ⟨?_, foldl_min_le_mem xs _⟩
      rcases foldl_min_mem_or xs PerfDistribution.init.min with h | h
      · have h1 : xs.foldl Nat.min PerfDistribution.init.min ≤ x0 :=
          foldl_min_le_mem xs _ x0 hx0
        have h2 : x0 ≤ 2 ^ 64 - 1 := by
          have := hbound x0 hx0
          omega
        have h3 : x0 = xs.foldl Nat.min PerfDistribution.init.min := by
          have : PerfDistribution.init.min = 2 ^ 64 - 1 := rfl
          omega
        rwa [← h3]
      · exact h
    · rw [storeSamples_max]
      refine ⟨?_, foldl_max_ge_mem xs _⟩
      rcases foldl_max_mem_or xs PerfDistribution.init.max with h | h
      · have h1 : x0 ≤ xs.foldl Nat.max PerfDistribution.init.max :=
          foldl_max_ge_mem xs _ x0 hx0
        have h3 : x0 = xs.foldl Nat.max PerfDistribution.init.max := by
          have : PerfDistribution.init.max = 0 := rfl
          omega
        rwa [← h3]
      · exact h

theorem perf_distribution_spec_witness :
    (storeSample PerfDistribution.init 25).bins 2 =
      PerfDistribution.init.bins 2 + 1 ∧
    (storeSample PerfDistribution.init 50000).binOverflows =
      PerfDistribution.init.binOverflows + 1 ∧
    (storeSamples PerfDistribution.init [3, 7]).min ∈ [3, 7] ∧
    (storeSamples PerfDistribution.init [3, 7]).max ∈ [3, 7] := by
  have h := perf_distribution_spec
  exact ⟨(h.2.1 PerfDistribution.init 25 (by decide)).1,
    (h.2.2.1 PerfDistribution.init 50000 (by decide)).1,
    ((h.2.2.2 [3, 7] (by decide) (by decide)).1).1,
    ((h.2.2.2 [3, 7] (by decide) (by decide)).2).1⟩

/-- A one-bucket table holding a single entry: Insert(0, 7). -/
def htOne : HT := applyOps (HT.empty 1) [.ins 0 7]

/-- A one-bucket table holding two entries whose keys collide on both the
bucket index and the secondary hash: Insert(0, 1) and Insert(2^20, 2); the
keys differ only in bits 16..47. -/
def htTwo : HT := applyOps (HT.empty 1) [.ins 0 1, .ins (2 ^ 20) 2]

theorem delete_spec_witness :
    (htOne.delete 0).fst = true ∧
    chainCands (secondaryHash 0) ((htOne.delete 0).snd.table (0 % htOne.nlines)) = [] ∧
    ((htOne.delete 0).snd.delete 0).fst = false := by
  have h := delete_spec htOne 0
  exact ⟨(h.2.2.1 7 [] (by decide)).1, (h.2.2.1 7 [] (by decide)).2.2.1,
    h.2.2.2 7 (by decide)⟩

/-- Counterexample to C5 as stated: on a table holding two entries whose keys
collide on bucket and secondary hash, a successful Delete(0) is followed by a
SECOND Delete(0), with no reinsertion, that returns true rather than false
(it removes the other, hash-colliding entry). -/
theorem delete_second_counterexample :
    (htTwo.delete 0).fst = true ∧ ((htTwo.delete 0).snd.delete 0).fst = true := by
  decide

theorem replace_spec_witness :
    ∃ ht2, htOne.replace 0 9 = .ok (true, ht2) ∧
      chainCands (secondaryHash 0) (ht2.table (0 % htOne.nlines)) = 9 :: [] ∧
      (∃ c₁ e₁ e₂ cr,
         htOne.table (0 % htOne.nlines) =
           c₁ ++ (e₁ ++ .Occupied (secondaryHash 0) 7 :: e₂) :: cr ∧
         ht2.table (0 % htOne.nlines) =
           c₁ ++ (e₁ ++ .Occupied (secondaryHash 0) 9 :: e₂) :: cr ∧
         (∀ l ∈ c₁, lineCands (secondaryHash 0) l = [] ∧ l.any Entry.isChain = true) ∧
         (∀ x ∈ e₁, x.isChain = false ∧ entryMatches (secondaryHash 0) x = false)) ∧
      (∀ sh2, sh2 ≠ secondaryHash 0 →
         chainCands sh2 (ht2.table (0 % htOne.nlines)) =
           chainCands sh2 (htOne.table (0 % htOne.nlines))) ∧
      (∀ i, i ≠ 0 % htOne.nlines → ht2.table i = htOne.table i) ∧
      ht2.nlines = htOne.nlines :=
  (replace_spec htOne 0 9 (by decide) (by decide)).2 7 [] (by decide)

theorem pack_unpack_roundtrip_witness :
    pack 3 true 5 =
      .ok ((3 <<< 48) ||| ((if true then 1 else 0) <<< 47) ||| (5 &&& (2 ^ 47 - 1)))
    ∧ ∀ w, pack 3 true 5 = .ok w → unpack w = ⟨3, true, 5⟩ :=
  pack_unpack_roundtrip 3 5 true (by decide) (by decide)

/-- Modelled from the spec: the wire-format header shared/rcrpc.h is external
to the index core (spec sections 1 and 6) and is not under src/; server.cc
only needs its RPC type codes as distinct constants.  The request and
response codes used by Server::handleRPC, plus a catch-all for any other
code. -/
inductive RcrpcType
  | pingReq
  | pingResp
  | read100Req
  | read100Resp
  | read1000Req
  | read1000Resp
  | write100Req
  | write100Resp
  | write1000Req
  | write1000Resp
  | other (code : Nat)
deriving DecidableEq, Repr

/-- Modelled from the spec: the RCRPC_*_LEN constants of the missing
shared/rcrpc.h; server.cc only stores them into the response len field, so
only their identities matter.  Distinct stand-in values are used. -/
def RCRPC_PING_RESPONSE_LEN : Nat := 8

/-- Modelled from the spec: see RCRPC_PING_RESPONSE_LEN. -/
def RCRPC_READ100_RESPONSE_LEN : Nat := 108

/-- Modelled from the spec: see RCRPC_PING_RESPONSE_LEN. -/
def RCRPC_READ1000_RESPONSE_LEN : Nat := 1008

/-- Modelled from the spec: see RCRPC_PING_RESPONSE_LEN. -/
def RCRPC_WRITE100_RESPONSE_LEN : Nat := 12

/-- Modelled from the spec: see RCRPC_PING_RESPONSE_LEN. -/
def RCRPC_WRITE1000_RESPONSE_LEN : Nat := 16

/-- An rcrpc message (struct rcrpc of the missing shared/rcrpc.h as used by
server.cc): a type code, a length, the key of the read/write unions, and the
remaining payload bytes, kept abstract. -/
structure Rcrpc where
  rtype : RcrpcType
  len : Nat
  key : Nat
  payload : List Nat
deriving DecidableEq, Repr

/-- The server state: the blobs array of server.h, indexed by key
(memset to zero at construction). -/
structure ServerState where
  blobs : Nat → Rcrpc

/-- The observable outcome of one Server::handleRPC invocation: either the
process exited (the default switch branch calls exit(1)) or net->sendRPC was
called exactly once with the given response (none models the null pointer). -/
inductive HandleResult
  | exited (code : Nat)
  | sent (resp : Option Rcrpc) (s : ServerState)

/-- How many times net->sendRPC runs in the given outcome. -/
def sendCount : HandleResult → Nat
  | .exited _ => 0
  | .sent _ _ => 1

/-- The request type codes Server::handleRPC's switch statement handles. -/
def knownType : RcrpcType → Bool
  | .pingReq => true
  | .read100Req => true
  | .read1000Req => true
  | .write100Req => true
  | .write1000Req => true
  | _ => false

/-- Server::handleRPC from src/src/server/server.cc.  buf is the
uninitialized stack rcrpc whose type and len fields the ping and write
branches set; recv is none when net->recvRPC returned non-zero.  The read
branches point resp at blobs[key] and update its type and len fields in
place; the write branches copy the request into blobs[key]; an unknown type
reaches the default branch, which calls exit(1) before any sendRPC. -/
def handleRPC (s : ServerState) (buf : Rcrpc) (recv : Option Rcrpc) : HandleResult :=
  match recv with
  | none => .sent none s
  | some req =>
    match req.rtype with
    | .pingReq =>
      .sent (some { buf with rtype := .pingResp, len := RCRPC_PING_RESPONSE_LEN }) s
    | .read100Req =>
      let b2 := { s.blobs req.key with
        rtype := .read100Resp, len := RCRPC_READ100_RESPONSE_LEN }
      .sent (some b2) { blobs := fun i => if i = req.key then b2 else s.blobs i }
    | .read1000Req =>
      let b2 := { s.blobs req.key with
        rtype := .read1000Resp, len := RCRPC_READ1000_RESPONSE_LEN }
      .sent (some b2) { blobs := fun i => if i = req.key then b2 else s.blobs i }
    | .write100Req =>
      .sent (some { buf with rtype := .write1000Resp, len := RCRPC_WRITE1000_RESPONSE_LEN })
        { blobs := fun i => if i = req.key then req else s.blobs i }
    | .write1000Req =>
      .sent (some { buf with rtype := .write1000Resp, len := RCRPC_WRITE1000_RESPONSE_LEN })
        { blobs := fun i => if i = req.key then req else s.blobs i }
    | _ => .exited 1

/-- C9 (amended): handleRPC calls sendRPC exactly once whenever it receives no
request or a request of a known type; when recvRPC returns non-zero the
response argument passed to sendRPC is the null pointer and the state is
untouched; a request of unknown type instead terminates the process through
exit(1) without calling sendRPC. -/
theorem handleRPC_send_once (s : ServerState) (buf : Rcrpc) (recv : Option Rcrpc) :
    (recv = none → handleRPC s buf recv = .sent none s) ∧
    (∀ req, recv = some req → knownType req.rtype = true →
       sendCount (handleRPC s buf recv) = 1) ∧
    (∀ req, recv = some req → knownType req.rtype = false →
       handleRPC s buf recv = .exited 1) := by
  refine ⟨?_, ?_, ?_⟩
  · intro h
    subst h
    rfl
  · intro req h hk
    subst h
    cases ht : req.rtype <;> simp [knownType, ht] at hk ⊢ <;>
      simp [handleRPC, sendCount, ht]
  · intro req h hk
    subst h
    cases ht : req.rtype <;> simp [knownType, ht] at hk ⊢ <;>
      simp [handleRPC, ht]

/-- Counterexample to C9 as stated: an invocation of handleRPC that receives a
request of unknown type 0xdead exits the process (sendRPC runs zero times,
not once). -/
theorem handleRPC_send_once_counterexample :
    handleRPC ⟨fun _ => ⟨.other 0, 0, 0, []⟩⟩ ⟨.other 0, 0, 0, []⟩
        (some ⟨.other 57005, 0, 0, []⟩) = .exited 1 ∧
    sendCount (handleRPC ⟨fun _ => ⟨.other 0, 0, 0, []⟩⟩ ⟨.other 0, 0, 0, []⟩
        (some ⟨.other 57005, 0, 0, []⟩)) = 0 :=
  ⟨rfl, rfl⟩

theorem handleRPC_send_once_witness :
    handleRPC ⟨fun _ => ⟨.other 0, 0, 0, []⟩⟩ ⟨.other 0, 0, 0, []⟩ none =
      .sent none ⟨fun _ => ⟨.other 0, 0, 0, []⟩⟩ ∧
    sendCount (handleRPC ⟨fun _ => ⟨.other 0, 0, 0, []⟩⟩ ⟨.other 0, 0, 0, []⟩
      (some ⟨.pingReq, 0, 0, []⟩)) = 1 :=
  ⟨(handleRPC_send_once ⟨fun _ => ⟨.other 0, 0, 0, []⟩⟩ ⟨.other 0, 0, 0, []⟩ none).1 rfl,
   (handleRPC_send_once ⟨fun _ => ⟨.other 0, 0, 0, []⟩⟩ ⟨.other 0, 0, 0, []⟩
      (some ⟨.pingReq, 0, 0, []⟩)).2.1 ⟨.pingReq, 0, 0, []⟩ rfl rfl⟩

/-- C10: a WRITE100 request makes handleRPC copy the request bytes into
blobs[key] and send a response whose type field is RCRPC_WRITE1000_RESPONSE
and whose len field is RCRPC_WRITE1000_RESPONSE_LEN — the WRITE1000
constants, not WRITE100-specific ones. -/
theorem write100_uses_write1000_constants (s : ServerState) (buf req : Rcrpc)
    (h : req.rtype = .write100Req) :
    handleRPC s buf (some req) =
      .sent (some { buf with rtype := .write1000Resp, len := RCRPC_WRITE1000_RESPONSE_LEN })
        ⟨fun i => if i = req.key then req else s.blobs i⟩ ∧
    RcrpcType.write1000Resp ≠ RcrpcType.write100Resp ∧
    RCRPC_WRITE1000_RESPONSE_LEN ≠ RCRPC_WRITE100_RESPONSE_LEN := by
  refine ⟨?_, by decide, by decide⟩
  simp [handleRPC, h]

theorem write100_uses_write1000_constants_witness :
    handleRPC ⟨fun _ => ⟨.other 0, 0, 0, []⟩⟩ ⟨.other 0, 0, 0, []⟩
        (some ⟨.write100Req, 5, 2, [1, 2, 3]⟩) =
      .sent (some { (⟨.other 0, 0, 0, []⟩ : Rcrpc) with
          rtype := .write1000Resp, len := RCRPC_WRITE1000_RESPONSE_LEN })
        ⟨fun i => if i = (⟨RcrpcType.write100Req, 5, 2, [1, 2, 3]⟩ : Rcrpc).key
          then ⟨.write100Req, 5, 2, [1, 2, 3]⟩
          else (fun _ => (⟨.other 0, 0, 0, []⟩ : Rcrpc)) i⟩ ∧
    RcrpcType.write1000Resp ≠ RcrpcType.write100Resp ∧
    RCRPC_WRITE1000_RESPONSE_LEN ≠ RCRPC_WRITE100_RESPONSE_LEN :=
  write100_uses_write1000_constants ⟨fun _ => ⟨.other 0, 0, 0, []⟩⟩
    ⟨.other 0, 0, 0, []⟩ ⟨.write100Req, 5, 2, [1, 2, 3]⟩ rfl

end RAMCloud
